import Mathlib

/-!
# A verification development for `calculator.cpp`

The program is a recursive-descent calculator: a one-token-lookahead lexer
(`token_stream`) over `std::cin`, three mutually recursive grammar functions
(`primary`, `term`, `expression`) that parse and evaluate in one pass, and a
session loop (`calculate`) with error recovery.

The embedding is shallow.  The global objects `ts`, `std::cin` and `variables`
become fields of an explicit state; a thrown `std::runtime_error` becomes an
error result that carries the state reached at the throw (globals keep their
mutations when an exception propagates); recursion and the `while (true)`
loops are bounded by a fuel argument.  The type `double`, its operations and
the library extraction `std::cin >> val` are a parameter (`Arith`), so every
general theorem holds for any interpretation of floating-point arithmetic.
-/

namespace Calc

/-! ## The `double` type and its library operations -/

/-- The operations on `double` that the program uses.  `scan` is the library
extraction `std::cin >> val` applied to the unread input: `none` when the
extraction fails, otherwise the value and the input left unread. -/
structure Arith (D : Type) where
  zero : D
  add : D → D → D
  sub : D → D → D
  mul : D → D → D
  div : D → D → D
  fmod : D → D → D
  neg : D → D
  isZero : D → Bool
  scan : List Char → Option (D × List Char)
  pi : D
  e : D

/-! ## Tokens -/

/-- Token kind of a floating-point number. -/
def number : Char := '8'
/-- Token kind of the exit command. -/
def quit : Char := 'q'
/-- Token kind of the print command. -/
def print : Char := ';'
/-- Token kind of the assignment sign. -/
def assignment : Char := '='
/-- Token kind of a variable name. -/
def var : Char := 'n'

/-- The class `token`: a kind, a value (for numbers) and a name (for variable
names).  `std::string` is a list of characters. -/
structure token (D : Type) where
  kind : Char
  value : D
  name : List Char
deriving DecidableEq, Repr

variable {D : Type}

/-- Constructor `token(char ch)`. -/
def token.of_kind (A : Arith D) (ch : Char) : token D := ⟨ch, A.zero, []⟩
/-- Constructor `token(double val)`. -/
def token.of_value (val : D) : token D := ⟨number, val, []⟩
/-- Constructor `token(char ch, std::string name)`. -/
def token.of_name (A : Arith D) (ch : Char) (name : List Char) : token D := ⟨ch, A.zero, name⟩

/-! ## The input stream `std::cin` -/

/-- The state of `std::cin` as the program can observe it: the unread
characters and the fail state.  The program never clears the fail state, so
once `fail` is set every later extraction fails and `input` is dead.

`uninit_ch` and `uninit_val` stand for the indeterminate contents of the
locals `char ch;` and `double val;` of `token_stream::get`, which are not
initialised and are left untouched by an extraction that fails. -/
structure istream (D : Type) where
  input : List Char
  fail : Bool
  uninit_ch : Char
  uninit_val : D
deriving DecidableEq, Repr

/-- The predicate `isspace` of the C locale. -/
def isspace (c : Char) : Bool :=
  c = ' ' || c = '\t' || c = '\n' || c = '\x0b' || c = '\x0c' || c = '\r'

/-- The predicate `isalpha` of the C locale. -/
def isalpha (c : Char) : Bool := c.isAlpha

/-- The predicate `isdigit`. -/
def isdigit (c : Char) : Bool := c.isDigit

/-- Formatted extraction `std::cin >> ch`: skip white space, then read one
character.  At end of input (or on a failed stream) nothing is read and the
fail state is set. -/
def istream.read_char (cin : istream D) : Option Char × istream D :=
  if cin.fail then (none, cin)
  else match cin.input.dropWhile isspace with
    | [] => (none, { cin with input := [], fail := true })
    | c :: rest => (some c, { cin with input := rest })

/-- The loop `while (std::cin.get(ch) && (isalpha(ch) || isdigit(ch))) s += ch;`
followed by `std::cin.putback(ch)`, on a stream that is not failed: the name
read, the input left, and whether the end of input was hit (which sets the
fail state; the `putback` then has no effect). -/
def name_loop (s : List Char) : List Char → List Char × List Char × Bool
  | [] => (s, [], true)
  | c :: cs => if isalpha c || isdigit c then name_loop (s ++ [c]) cs else (s, c :: cs, false)

/-- The map `symbols` of built-in constants.  It is never written. -/
def symbols (A : Arith D) : List (List Char × D) :=
  [(['e'], A.e), (['p', 'i'], A.pi)]

/-! ## The token stream -/

/-- The class `token_stream` (`full`, `buffer`) together with the stream
`std::cin` that its member functions read. -/
structure token_stream (D : Type) where
  full : Bool
  buffer : token D
  cin : istream D
deriving DecidableEq, Repr

/-- The messages of the `std::runtime_error`s the program throws. -/
inductive Err where
  | bad_token
  | rparen_expected
  | primary_expected
  | undefined_symbol (name : List Char)
  | divide_by_zero
  | buffer_full
deriving DecidableEq, Repr

/-- The text `e.what()` of each error. -/
def Err.what : Err → String
  | .bad_token => "Bad token"
  | .rparen_expected => "')' expected"
  | .primary_expected => "primary expected"
  | .undefined_symbol name => "undefined symbol: " ++ String.mk name
  | .divide_by_zero => "divide by zero"
  | .buffer_full => "putback() into a full buffer"

/-- Outcome of reading one token from `std::cin`: the token, or a thrown
error, each with the state of `std::cin` reached. -/
inductive IRes (D : Type) where
  | ok (t : token D) (cin : istream D)
  | err (e : Err) (cin : istream D)
deriving DecidableEq, Repr

/-- The token read, if one was. -/
def IRes.tok : IRes D → Option (token D)
  | .ok t _ => some t
  | .err _ _ => none

/-- The state of `std::cin` reached. -/
def IRes.cin : IRes D → istream D
  | .ok _ c => c
  | .err _ c => c

/-- Outcome of a member function of `token_stream`: a value or a thrown
error, each with the stream state reached. -/
inductive LRes (D : Type) (α : Type) where
  | ok (a : α) (ts : token_stream D)
  | err (e : Err) (ts : token_stream D)
deriving DecidableEq, Repr

/-- Member `token_stream::putback`. -/
def putback (t : token D) (ts : token_stream D) : LRes D Unit :=
  if ts.full then .err .buffer_full ts
  else .ok () { ts with buffer := t, full := true }

/-- The `switch (ch)` of `token_stream::get`, entered with the value `ch` of
the local and the state of `std::cin` after `std::cin >> ch`. -/
def get_switch (A : Arith D) (ch : Char) (cin : istream D) : IRes D :=
  if ch = '(' ∨ ch = ')' ∨ ch = ';' ∨ ch = 'q' ∨ ch = '+' ∨ ch = '-' ∨ ch = '*'
      ∨ ch = '/' ∨ ch = '%' then
    .ok (token.of_kind A ch) cin
  else if ch = '.' ∨ isdigit ch then
    -- `std::cin.putback(ch); double val; std::cin >> val; return token(val);`
    -- on a failed stream neither call has an effect and `val` stays unset
    if cin.fail then .ok (token.of_value cin.uninit_val) cin
    else match A.scan (ch :: cin.input) with
      | some (val, rest) => .ok (token.of_value val) { cin with input := rest }
      | none => .ok (token.of_value A.zero) { cin with fail := true }
  else if ch = '=' then
    .ok (token.of_kind A assignment) cin
  else if isalpha ch then
    let r := if cin.fail then ([ch], cin.input, true) else name_loop [ch] cin.input
    let cin1 := { cin with input := r.2.1, fail := r.2.2 }
    match (symbols A).lookup r.1 with
    | some v => .ok (token.of_value v) cin1
    | none => .ok (token.of_name A var r.1) cin1
  else .err .bad_token cin

/-- The part of `token_stream::get` after the test of `full`: `std::cin >> ch`
and the `switch`.  When the extraction fails, `ch` keeps its indeterminate
content. -/
def lex (A : Arith D) (cin : istream D) : IRes D :=
  match cin.read_char with
  | (some ch, cin1) => get_switch A ch cin1
  | (none, cin1) => get_switch A cin.uninit_ch cin1

/-- Member `token_stream::get`. -/
def get (A : Arith D) (ts : token_stream D) : LRes D (token D) :=
  if ts.full then .ok ts.buffer { ts with full := false }
  else
    match lex A ts.cin with
    | .ok t cin1 => .ok t { ts with cin := cin1 }
    | .err e cin1 => .err e { ts with cin := cin1 }

/-- The loop `while (std::cin >> ch) \x7b if (ch == c) break; \x7d` of
`token_stream::ignore` on a stream that is not failed: the input left and
whether the end of input was hit. -/
def ignore_loop (c : Char) : List Char → List Char × Bool
  | [] => ([], true)
  | x :: xs => if isspace x then ignore_loop c xs
               else if x = c then (xs, false) else ignore_loop c xs

/-- Member `token_stream::ignore`.  It throws nothing. -/
def ignore (c : Char) (ts : token_stream D) : token_stream D :=
  if ts.full && c = ts.buffer.kind then { ts with full := false }
  else if ts.cin.fail then { ts with full := false }
  else
    let r := ignore_loop c ts.cin.input
    { ts with full := false, cin := { ts.cin with input := r.1, fail := r.2 } }

/-! ## The parser and evaluator -/

/-- The global state of the program: the token stream `ts` (with `std::cin`)
and the map `variables` (the word is reserved in Lean, hence `vars`). -/
structure State (D : Type) where
  ts : token_stream D
  vars : List (List Char × D)
deriving DecidableEq, Repr

/-- The assignment `variables[name] = val`: overwrite the entry of `name`, or
insert one. -/
def store (name : List Char) (val : D) : List (List Char × D) → List (List Char × D)
  | [] => [(name, val)]
  | (k, v) :: m => if k = name then (k, val) :: m else (k, v) :: store name val m

/-- Outcome of a grammar function: a value, a thrown error, or the fuel of
the model ran out (`timeout` is no behaviour of the program).  The first two
carry the global state reached. -/
inductive Res (D : Type) (α : Type) where
  | ok (a : α) (s : State D)
  | err (e : Err) (s : State D)
  | timeout
deriving DecidableEq, Repr

/-- Run a member function of `ts` inside the global state, then continue. -/
def Res.of_ts {α β : Type} (s : State D) (r : LRes D α) (k : α → State D → Res D β) : Res D β :=
  match r with
  | .ok a ts1 => k a { s with ts := ts1 }
  | .err e ts1 => .err e { s with ts := ts1 }

/-- Sequencing: an error or a timeout of the first computation propagates. -/
def Res.bind {α β : Type} (r : Res D α) (k : α → State D → Res D β) : Res D β :=
  match r with
  | .ok a s => k a s
  | .err e s => .err e s
  | .timeout => .timeout

mutual
/-- Function `primary()`: a number, a parenthesised expression, a negated
primary, or a variable name that is either assigned or looked up. -/
def primary (A : Arith D) : Nat → State D → Res D D
  | 0, _ => .timeout
  | n + 1, s =>
    Res.of_ts s (get A s.ts) fun t s1 =>
      if t.kind = '(' then
        (expression A n s1).bind fun d s2 =>
          Res.of_ts s2 (get A s2.ts) fun t2 s3 =>
            if t2.kind ≠ ')' then .err .rparen_expected s3 else .ok d s3
      else if t.kind = number then .ok t.value s1
      else if t.kind = '-' then
        (primary A n s1).bind fun v s2 => .ok (A.neg v) s2
      else if t.kind = var then
        Res.of_ts s1 (get A s1.ts) fun next_t s2 =>
          if next_t.kind = assignment then
            (expression A n s2).bind fun val s3 =>
              .ok val { s3 with vars := store t.name val s3.vars }
          else
            Res.of_ts s2 (putback next_t s2.ts) fun _ s3 =>
              match s3.vars.lookup t.name with
              | some v => .ok v s3
              | none => .err (.undefined_symbol t.name) s3
      else .err .primary_expected s1
/-- The loop `while (true)` of `term()`, entered with the current `left`. -/
def term_loop (A : Arith D) : Nat → D → State D → Res D D
  | 0, _, _ => .timeout
  | n + 1, left, s =>
    Res.of_ts s (get A s.ts) fun t s1 =>
      if t.kind = '*' then
        (primary A n s1).bind fun v s2 => term_loop A n (A.mul left v) s2
      else if t.kind = '/' then
        (primary A n s1).bind fun d s2 =>
          if A.isZero d then .err .divide_by_zero s2
          else term_loop A n (A.div left d) s2
      else if t.kind = '%' then
        (primary A n s1).bind fun d s2 =>
          if A.isZero d then .err .divide_by_zero s2
          else term_loop A n (A.fmod left d) s2
      else
        Res.of_ts s1 (putback t s1.ts) fun _ s2 => .ok left s2
/-- Function `term()`. -/
def term (A : Arith D) : Nat → State D → Res D D
  | 0, _ => .timeout
  | n + 1, s => (primary A n s).bind fun left s1 => term_loop A n left s1
/-- The loop `while (true)` of `expression()`, entered with the current `left`. -/
def expression_loop (A : Arith D) : Nat → D → State D → Res D D
  | 0, _, _ => .timeout
  | n + 1, left, s =>
    Res.of_ts s (get A s.ts) fun t s1 =>
      if t.kind = '+' then
        (term A n s1).bind fun v s2 => expression_loop A n (A.add left v) s2
      else if t.kind = '-' then
        (term A n s1).bind fun v s2 => expression_loop A n (A.sub left v) s2
      else
        Res.of_ts s1 (putback t s1.ts) fun _ s2 => .ok left s2
/-- Function `expression()`. -/
def expression (A : Arith D) : Nat → State D → Res D D
  | 0, _ => .timeout
  | n + 1, s => (term A n s).bind fun left s1 => expression_loop A n left s1
end

/-- Function `clean_up_mess()`. -/
def clean_up_mess (s : State D) : State D := { s with ts := ignore print s.ts }

/-! ## The session loop -/

/-- What one pass through the loop of `calculate()` writes: the prompt, a
result line (`"= "`, the value, end of line) on `std::cout`, or the message of
a caught error on `std::cerr`. -/
inductive Output (D : Type) where
  | prompt
  | result (v : D)
  | error (e : Err)
deriving DecidableEq, Repr

/-- The loop `while (t.kind() == print) t = ts.get();`. -/
def skip_prints (A : Arith D) : Nat → token D → State D → Res D (token D)
  | 0, _, _ => .timeout
  | n + 1, t, s =>
    if t.kind = print then Res.of_ts s (get A s.ts) fun t1 s1 => skip_prints A n t1 s1
    else .ok t s

/-- The `try` block of `calculate()`: `none` as value means `return` (the
quit command was read), otherwise the value that was printed. -/
def try_block (A : Arith D) (n : Nat) (s : State D) : Res D (Option D) :=
  Res.of_ts s (get A s.ts) fun t s1 =>
    (skip_prints A n t s1).bind fun t1 s2 =>
      if t1.kind = quit then .ok none s2
      else
        Res.of_ts s2 (putback t1 s2.ts) fun _ s3 =>
          (expression A n s3).bind fun v s4 => .ok (some v) s4

/-- Function `calculate()`: what the session writes and the final state, or
`none` when the fuel of the model ran out. -/
def calculate (A : Arith D) : Nat → State D → Option (List (Output D) × State D)
  | 0, _ => none
  | n + 1, s =>
    if s.ts.cin.fail then some ([], s)
    else
      match try_block A n s with
      | .ok none s1 => some ([.prompt], s1)
      | .ok (some v) s1 =>
        (calculate A n s1).map fun r => (.prompt :: .result v :: r.1, r.2)
      | .err e s1 =>
        (calculate A n (clean_up_mess s1)).map fun r => (.prompt :: .error e :: r.1, r.2)
      | .timeout => none

/-- The state in which `main()` starts `calculate()` on the input `inp`: empty
buffer (holding `token('\0')`), no variables. -/
def initial (A : Arith D) (inp : List Char) (uninit_ch : Char) (uninit_val : D) : State D :=
  { ts := { full := false, buffer := token.of_kind A '\x00',
            cin := { input := inp, fail := false, uninit_ch := uninit_ch, uninit_val := uninit_val } },
    vars := [] }

/-! ## Token sequences offered by the stream -/

/-- Reading the tokens `toks` one after the other from `std::cin` (empty
buffer) succeeds and leaves `std::cin` in the state `c'`. -/
def Lex (A : Arith D) : istream D → List (token D) → istream D → Prop
  | c, [], c' => c = c'
  | c, t :: r, c' => (lex A c).tok = some t ∧ Lex A (lex A c).cin r c'

/-- Successive calls of `ts.get()` return the tokens `toks` and leave
`std::cin` in the state `c'`: a buffered token comes first, the others are
read from `std::cin`. -/
def Offers (A : Arith D) (ts : token_stream D) : List (token D) → istream D → Prop
  | [], c' => ts.full = false ∧ ts.cin = c'
  | t :: r, c' => if ts.full then ts.buffer = t ∧ Lex A ts.cin r c' else Lex A ts.cin (t :: r) c'

/-- Decision procedure for `Lex`, by running the lexer. -/
def Lex.dec [DecidableEq D] (A : Arith D) :
    (c : istream D) → (toks : List (token D)) → (c' : istream D) → Decidable (Lex A c toks c')
  | c, [], c' => inferInstanceAs (Decidable (c = c'))
  | c, t :: r, c' =>
    @instDecidableAnd _ _ (inferInstanceAs (Decidable ((lex A c).tok = some t)))
      (Lex.dec A (lex A c).cin r c')

instance [DecidableEq D] (A : Arith D) (c : istream D) (toks : List (token D)) (c' : istream D) :
    Decidable (Lex A c toks c') := Lex.dec A c toks c'

instance [DecidableEq D] (A : Arith D) (ts : token_stream D) (toks : List (token D))
    (c' : istream D) : Decidable (Offers A ts toks c') :=
  match toks with
  | [] => inferInstanceAs (Decidable (ts.full = false ∧ ts.cin = c'))
  | t :: r => inferInstanceAs
      (Decidable (if ts.full then ts.buffer = t ∧ Lex A ts.cin r c' else Lex A ts.cin (t :: r) c'))

/-! ## The grammar of the specification and the value it gives

`primary := number | '(' expression ')' | '-' primary | identifier [ '=' expression ]`,
`term := primary (('*'|'/'|'%') primary)*` and
`expression := term (('+'|'-') term)*`, both left-associative.  A `Tree` is a
derivation in this grammar; its value is defined by recursion on the
derivation, independently of the parser. -/

/-- The three levels of the grammar. -/
inductive Level where
  | primary
  | term
  | expression
deriving DecidableEq, Repr

/-- Derivations of the grammar, indexed by level. -/
inductive Tree (D : Type) : Level → Type where
  | num (v : D) : Tree D .primary
  | paren (e : Tree D .expression) : Tree D .primary
  | neg (p : Tree D .primary) : Tree D .primary
  | ref (name : List Char) : Tree D .primary
  | assign (name : List Char) (e : Tree D .expression) : Tree D .primary
  | of_primary (p : Tree D .primary) : Tree D .term
  | mul (t : Tree D .term) (p : Tree D .primary) : Tree D .term
  | div (t : Tree D .term) (p : Tree D .primary) : Tree D .term
  | mod (t : Tree D .term) (p : Tree D .primary) : Tree D .term
  | of_term (t : Tree D .term) : Tree D .expression
  | add (e : Tree D .expression) (t : Tree D .term) : Tree D .expression
  | sub (e : Tree D .expression) (t : Tree D .term) : Tree D .expression

/-- The token sequence of a derivation. -/
def Tree.toks (A : Arith D) : {l : Level} → Tree D l → List (token D)
  | _, .num v => [token.of_value v]
  | _, .paren e => token.of_kind A '(' :: (e.toks A ++ [token.of_kind A ')'])
  | _, .neg p => token.of_kind A '-' :: p.toks A
  | _, .ref name => [token.of_name A var name]
  | _, .assign name e => token.of_name A var name :: token.of_kind A assignment :: e.toks A
  | _, .of_primary p => p.toks A
  | _, .mul t p => t.toks A ++ token.of_kind A '*' :: p.toks A
  | _, .div t p => t.toks A ++ token.of_kind A '/' :: p.toks A
  | _, .mod t p => t.toks A ++ token.of_kind A '%' :: p.toks A
  | _, .of_term t => t.toks A
  | _, .add e t => e.toks A ++ token.of_kind A '+' :: t.toks A
  | _, .sub e t => e.toks A ++ token.of_kind A '-' :: t.toks A

/-- Value of a derivation: a number or an error, with the variables after the
evaluation. -/
inductive Val (D : Type) where
  | ok (v : D) (m : List (List Char × D))
  | err (e : Err) (m : List (List Char × D))
deriving DecidableEq, Repr

/-- Evaluate the second operand and combine, unless the first failed. -/
def Val.bind (x : Val D) (k : D → List (List Char × D) → Val D) : Val D :=
  match x with
  | .ok v m => k v m
  | .err e m => .err e m

/-- The value of a derivation in standard arithmetic, operands evaluated from
left to right: division and remainder by zero are errors, a name that has no
value is an error, an assignment stores the value of its right-hand side. -/
def Tree.eval (A : Arith D) : {l : Level} → Tree D l → List (List Char × D) → Val D
  | _, .num v, m => .ok v m
  | _, .paren e, m => e.eval A m
  | _, .neg p, m => (p.eval A m).bind fun v m1 => .ok (A.neg v) m1
  | _, .ref name, m =>
    match m.lookup name with
    | some v => .ok v m
    | none => .err (.undefined_symbol name) m
  | _, .assign name e, m => (e.eval A m).bind fun v m1 => .ok v (store name v m1)
  | _, .of_primary p, m => p.eval A m
  | _, .mul t p, m =>
    (t.eval A m).bind fun a m1 => (p.eval A m1).bind fun b m2 => .ok (A.mul a b) m2
  | _, .div t p, m =>
    (t.eval A m).bind fun a m1 => (p.eval A m1).bind fun b m2 =>
      if A.isZero b then .err .divide_by_zero m2 else .ok (A.div a b) m2
  | _, .mod t p, m =>
    (t.eval A m).bind fun a m1 => (p.eval A m1).bind fun b m2 =>
      if A.isZero b then .err .divide_by_zero m2 else .ok (A.fmod a b) m2
  | _, .of_term t, m => t.eval A m
  | _, .add e t, m =>
    (e.eval A m).bind fun a m1 => (t.eval A m1).bind fun b m2 => .ok (A.add a b) m2
  | _, .sub e t, m =>
    (e.eval A m).bind fun a m1 => (t.eval A m1).bind fun b m2 => .ok (A.sub a b) m2

/-- The kinds of the five binary operators. -/
def is_operator (k : Char) : Prop := k = '*' ∨ k = '/' ∨ k = '%' ∨ k = '+' ∨ k = '-'

instance (k : Char) : Decidable (is_operator k) := by unfold is_operator; infer_instance

/-- A token of kind `k` may follow the last primary of the derivation without
being taken into it: after a name not `=`, and after an assignment (whose
right-hand side is a whole expression) no operator. -/
def Tree.pstop : {l : Level} → Tree D l → Char → Prop
  | _, .num _, _ => True
  | _, .paren _, _ => True
  | _, .neg p, k => p.pstop k
  | _, .ref _, k => k ≠ assignment
  | _, .assign _ e, k => e.pstop k ∧ ¬ is_operator k
  | _, .of_primary p, k => p.pstop k
  | _, .mul _ p, k => p.pstop k
  | _, .div _ p, k => p.pstop k
  | _, .mod _ p, k => p.pstop k
  | _, .of_term t, k => t.pstop k
  | _, .add _ t, k => t.pstop k
  | _, .sub _ t, k => t.pstop k

/-- The derivation is the one the grammar gives to its token sequence: the
left operand of an operator does not end in an open assignment. -/
def Tree.wf : {l : Level} → Tree D l → Prop
  | _, .num _ => True
  | _, .paren e => e.wf
  | _, .neg p => p.wf
  | _, .ref _ => True
  | _, .assign _ e => e.wf
  | _, .of_primary p => p.wf
  | _, .mul t p => t.wf ∧ t.pstop '*' ∧ p.wf
  | _, .div t p => t.wf ∧ t.pstop '/' ∧ p.wf
  | _, .mod t p => t.wf ∧ t.pstop '%' ∧ p.wf
  | _, .of_term t => t.wf
  | _, .add e t => e.wf ∧ e.pstop '+' ∧ t.wf
  | _, .sub e t => e.wf ∧ e.pstop '-' ∧ t.wf

/-- The derivation uses number literals, parentheses, unary minus and the
binary operators only: no names. -/
def Tree.arith : {l : Level} → Tree D l → Prop
  | _, .num _ => True
  | _, .paren e => e.arith
  | _, .neg p => p.arith
  | _, .ref _ => False
  | _, .assign _ _ => False
  | _, .of_primary p => p.arith
  | _, .mul t p => t.arith ∧ p.arith
  | _, .div t p => t.arith ∧ p.arith
  | _, .mod t p => t.arith ∧ p.arith
  | _, .of_term t => t.arith
  | _, .add e t => e.arith ∧ t.arith
  | _, .sub e t => e.arith ∧ t.arith

/-! ## Statements about runs of the fuelled functions -/

/-- With enough fuel the computation `f` gives the result `r`. -/
def Conv {α : Type} (f : Nat → Res D α) (r : Res D α) : Prop := ∃ n0, ∀ n, n0 ≤ n → f n = r

/-- The run `f` of a grammar function agrees with the value `x` of the
derivation it reads: on success it returns the value, holds the variables of
`x`, and the stream offers the tokens `tl` that follow the derivation; on an
error it throws that error, holds the variables of `x`, and the stream offers
the unread rest `rem` of the derivation (no print command in it), then `tl`. -/
def Runs (A : Arith D) (f : Nat → Res D D) (x : Val D) (tl : List (token D))
    (c' : istream D) : Prop :=
  match x with
  | .ok v m => ∃ s1, s1.vars = m ∧ Offers A s1.ts tl c' ∧ Conv f (.ok v s1)
  | .err e m => ∃ s1 rem, s1.vars = m ∧ Offers A s1.ts (rem ++ tl) c'
      ∧ (∀ y ∈ rem, y.kind ≠ print) ∧ Conv f (.err e s1)

/-- As `Runs`, for `term()` and `expression()` whose derivation has been read
and whose loop is about to read the next token: on success the run `f`
continues as the loop `loop` entered with the value of the derivation. -/
def Heads (A : Arith D) (f : Nat → Res D D) (loop : Nat → D → State D → Res D D) (x : Val D)
    (tl : List (token D)) (c' : istream D) : Prop :=
  match x with
  | .ok v m => ∃ s1, s1.vars = m ∧ Offers A s1.ts tl c'
      ∧ ∀ r, Conv (fun n => loop n v s1) r → Conv f r
  | .err e m => ∃ s1 rem, s1.vars = m ∧ Offers A s1.ts (rem ++ tl) c'
      ∧ (∀ y ∈ rem, y.kind ≠ print) ∧ Conv f (.err e s1)

/-- As `Runs`, for a complete run of `term()` or `expression()`: on success
the token `k` that ended the derivation is in the buffer. -/
def Returns (A : Arith D) (f : Nat → Res D D) (x : Val D) (k : token D) (tl : List (token D))
    (c' : istream D) : Prop :=
  match x with
  | .ok v m => ∃ s1, s1.vars = m ∧ s1.ts.full = true ∧ s1.ts.buffer = k
      ∧ Lex A s1.ts.cin tl c' ∧ Conv f (.ok v s1)
  | .err e m => ∃ s1 rem, s1.vars = m ∧ Offers A s1.ts (rem ++ k :: tl) c'
      ∧ (∀ y ∈ rem, y.kind ≠ print) ∧ Conv f (.err e s1)

/-- The parser agrees with the grammar on the derivation: it reads its tokens
and gives its value, whatever tokens `k :: tl` follow, provided `k` cannot
continue the derivation. -/
def Goal (A : Arith D) : {l : Level} → Tree D l → Prop
  | .primary, p => ∀ (s : State D) (k : token D) (tl : List (token D)) (c' : istream D),
      p.wf → p.pstop k.kind → Offers A s.ts (p.toks A ++ k :: tl) c' →
      Runs A (fun n => primary A n s) (p.eval A s.vars) (k :: tl) c'
  | .term, t => ∀ (s : State D) (k : token D) (tl : List (token D)) (c' : istream D),
      t.wf → t.pstop k.kind → Offers A s.ts (t.toks A ++ k :: tl) c' →
      Heads A (fun n => term A n s) (term_loop A) (t.eval A s.vars) (k :: tl) c'
  | .expression, e => ∀ (s : State D) (k : token D) (tl : List (token D)) (c' : istream D),
      e.wf → e.pstop k.kind → k.kind ≠ '*' → k.kind ≠ '/' → k.kind ≠ '%' →
      Offers A s.ts (e.toks A ++ k :: tl) c' →
      Heads A (fun n => expression A n s) (expression_loop A) (e.eval A s.vars) (k :: tl) c'

/-- The outcome is not the error `putback() into a full buffer`. -/
def NoBufferFull {α : Type} (r : Res D α) : Prop := ∀ s, r ≠ .err .buffer_full s

/-- Assumption on the library extraction `std::cin >> val`: what it leaves
unread is the rest of what it was given, and it reads no print command
character. -/
def scan_keeps_print (A : Arith D) : Prop :=
  ∀ inp v rest, A.scan inp = some (v, rest) → ∃ pre, inp = pre ++ rest ∧ print ∉ pre

/-- The list `rest` is what is left of `inp` after reading characters none of
which is the print command. -/
def Consumed (inp rest : List Char) : Prop := ∃ pre, inp = pre ++ rest ∧ print ∉ pre

/-- The characters for which the `switch` of `token_stream::get` returns a
token: the punctuation, `.`, the digits, `=` and the letters. -/
def recognised (ch : Char) : Prop :=
  (ch = '(' ∨ ch = ')' ∨ ch = ';' ∨ ch = 'q' ∨ ch = '+' ∨ ch = '-' ∨ ch = '*'
      ∨ ch = '/' ∨ ch = '%') ∨ (ch = '.' ∨ isdigit ch) ∨ ch = '=' ∨ isalpha ch

instance (ch : Char) : Decidable (recognised ch) := by unfold recognised; infer_instance

/-- The characters that `token_stream::get` returns as a punctuation token
of their own kind: `( ) ; q + - * / %` and `=`. -/
def is_punct (ch : Char) : Prop :=
  ch = '(' ∨ ch = ')' ∨ ch = ';' ∨ ch = 'q' ∨ ch = '+' ∨ ch = '-' ∨ ch = '*'
    ∨ ch = '/' ∨ ch = '%' ∨ ch = '='

instance (ch : Char) : Decidable (is_punct ch) := by unfold is_punct; infer_instance

/-- The test `isalpha(ch) || isdigit(ch)` of the name loop. -/
def isalnum (c : Char) : Bool := isalpha c || isdigit c

/-- The primary `p` preceded by `n` unary minus signs. -/
def Tree.negs : Nat → Tree D .primary → Tree D .primary
  | 0, p => p
  | n + 1, p => .neg (Tree.negs n p)

/-- A property of the global state made of a property `I` of `std::cin`, a
property `T` of the buffered token and a property `P` of the variables. -/
def Keeps (I : istream D → Prop) (T : token D → Prop) (P : List (List Char × D) → Prop)
    (s : State D) : Prop :=
  I s.ts.cin ∧ (s.ts.full = true → T s.ts.buffer) ∧ P s.vars

/-- The state reached by a grammar function, if it returned or threw,
satisfies `Q`. -/
def Res.all {α : Type} (Q : State D → Prop) : Res D α → Prop
  | .ok _ s => Q s
  | .err _ s => Q s
  | .timeout => True

/-- The states in which the session that starts in `s0` stands at the top of
the loop of `calculate()`, or in which an error was thrown in its `try` block. -/
inductive Reachable (A : Arith D) (s0 : State D) : State D → Prop where
  | start : Reachable A s0 s0
  | returned (n : Nat) (a : Option D) (s s1 : State D) :
      Reachable A s0 s → try_block A n s = .ok a s1 → Reachable A s0 s1
  | thrown (n : Nat) (e : Err) (s s1 : State D) :
      Reachable A s0 s → try_block A n s = .err e s1 → Reachable A s0 s1
  | recovered (n : Nat) (e : Err) (s s1 : State D) :
      Reachable A s0 s → try_block A n s = .err e s1 → Reachable A s0 (clean_up_mess s1)

/-- The access `m[name]` of a `std::map`: the value of the entry of `name`,
and the map, which gets an entry with the value `zero` when it had none. -/
def index (zero : D) (name : List Char) (m : List (List Char × D)) : D × List (List Char × D) :=
  match m.lookup name with
  | some v => (v, m)
  | none => (zero, store name zero m)

/-! ## An exact instance of the arithmetic

Rational numbers stand for the `double` values; every operation is exact.
The operations are written with `mkRat` and `Rat.divInt` on numerators and
denominators so that they evaluate by computation. -/

/-- Exact sum. -/
def qadd (a b : ℚ) : ℚ := mkRat (a.num * b.den + b.num * a.den) (a.den * b.den)
/-- Exact negation. -/
def qneg (a : ℚ) : ℚ := mkRat (-a.num) a.den
/-- Exact difference. -/
def qsub (a b : ℚ) : ℚ := mkRat (a.num * b.den - b.num * a.den) (a.den * b.den)
/-- Exact product. -/
def qmul (a b : ℚ) : ℚ := mkRat (a.num * b.num) (a.den * b.den)
/-- Exact quotient. -/
def qdiv (a b : ℚ) : ℚ := Rat.divInt (a.num * b.den) (a.den * b.num)
/-- The function `fmod`: `a - b * trunc (a / b)`, the quotient truncated
towards zero. -/
def qfmod (a b : ℚ) : ℚ :=
  qsub a (qmul b (mkRat (Int.tdiv (a.num * b.den) (a.den * b.num)) 1))

/-- Value of a string of decimal digits read after `acc`. -/
def digits_value (acc : Nat) : List Char → Nat
  | [] => acc
  | c :: cs => digits_value (10 * acc + (c.toNat - 48)) cs

/-- The exponent part of a literal (`e` or `E`, an optional sign, digits): the
factor by which it scales and the input left, `none` when no digit follows. -/
def scan_exponent (inp : List Char) : Option ((ℚ → ℚ) × List Char) :=
  let body (neg : Bool) (r : List Char) : Option ((ℚ → ℚ) × List Char) :=
    let ds := r.takeWhile isdigit
    if ds = [] then none
    else
      let k := digits_value 0 ds
      some ((fun m => if neg then qdiv m (mkRat (10 ^ k) 1) else qmul m (mkRat (10 ^ k) 1)),
            r.dropWhile isdigit)
  match inp with
  | '+' :: r => body false r
  | '-' :: r => body true r
  | r => body false r

/-- A reader of decimal literals for `std::cin >> val`: digits, an optional
fraction, an optional exponent; at least one digit is required. -/
def scan_decimal (inp : List Char) : Option (ℚ × List Char) :=
  let ip := inp.takeWhile isdigit
  let r1 := inp.dropWhile isdigit
  let fp := match r1 with
    | '.' :: r => r.takeWhile isdigit
    | _ => []
  let r2 := match r1 with
    | '.' :: r => r.dropWhile isdigit
    | _ => r1
  if ip = [] ∧ fp = [] then none
  else
    let m := mkRat (digits_value 0 (ip ++ fp)) (10 ^ fp.length)
    match r2 with
    | 'e' :: r => (scan_exponent r).map fun x => (x.1 m, x.2)
    | 'E' :: r => (scan_exponent r).map fun x => (x.1 m, x.2)
    | _ => some (m, r2)

/-- The exact arithmetic on rational numbers, with the two constants of
`symbols` as the decimal fractions written in the source. -/
def ratArith : Arith ℚ where
  zero := 0
  add := qadd
  sub := qsub
  mul := qmul
  div := qdiv
  fmod := qfmod
  neg := qneg
  isZero := fun d => decide (d = 0)
  scan := scan_decimal
  pi := mkRat 314159265358979323846 100000000000000000000
  e := mkRat 271828182845904523536 100000000000000000000

/-- Run the session of `main()` on a text in the exact arithmetic (the
indeterminate locals hold a null character and zero). -/
def run (n : Nat) (text : String) : Option (List (Output ℚ)) :=
  (calculate ratArith n (initial ratArith text.toList '\x00' 0)).map Prod.fst

/-! # Properties -/

/-! ## The exact instance computes the field operations of the rationals -/

theorem qadd_eq (a b : ℚ) : qadd a b = a + b := (Rat.add_def' a b).symm

theorem qsub_eq (a b : ℚ) : qsub a b = a - b := (Rat.sub_def' a b).symm

theorem qmul_eq (a b : ℚ) : qmul a b = a * b := by
  rw [qmul, ← Rat.mkRat_mul_mkRat, Rat.mkRat_self, Rat.mkRat_self]

theorem qneg_eq (a : ℚ) : qneg a = -a := by
  rw [qneg, ← Rat.neg_mkRat, Rat.mkRat_self]

theorem qdiv_eq (a b : ℚ) : qdiv a b = a / b := by
  rw [qdiv, Rat.div_def' a b]

theorem qfmod_eq (a b : ℚ) :
    qfmod a b = a - b * ((Int.tdiv (a.num * b.den) (a.den * b.num) : ℤ) : ℚ) := by
  rw [qfmod, qsub_eq, qmul_eq, Rat.mkRat_one]

/-! ## The token stream -/

theorem offers_iff_lex (A : Arith D) {ts : token_stream D} (hf : ts.full = false)
    (r : List (token D)) (c' : istream D) : Offers A ts r c' ↔ Lex A ts.cin r c' := by
  cases r with
  | nil => simp [Offers, Lex, hf]
  | cons t r => simp [Offers, hf]

theorem get_of_offers (A : Arith D) {ts : token_stream D} {t : token D} {r : List (token D)}
    {c' : istream D} (h : Offers A ts (t :: r) c') :
    ∃ ts1, get A ts = .ok t ts1 ∧ ts1.full = false ∧ Offers A ts1 r c' := by
  by_cases hf : ts.full = true
  · simp only [Offers, if_pos hf] at h
    refine ⟨{ ts with full := false }, ?_, rfl, ?_⟩
    · simp [get, hf, h.1]
    · exact (offers_iff_lex A rfl r c').2 h.2
  · simp only [Offers, if_neg hf, Lex] at h
    have hf' : ts.full = false := by simpa using hf
    obtain ⟨h1, h2⟩ := h
    cases hl : lex A ts.cin with
    | ok t1 c1 =>
      rw [hl] at h1 h2
      simp only [IRes.tok, Option.some.injEq] at h1
      simp only [IRes.cin] at h2
      refine ⟨{ ts with cin := c1 }, ?_, hf', ?_⟩
      · simp [get, hf', hl, h1]
      · exact (@offers_iff_lex D A { ts with cin := c1 } hf' r c').2 h2
    | err e c1 =>
      rw [hl] at h1
      simp [IRes.tok] at h1

theorem offers_putback (A : Arith D) {ts : token_stream D} (hf : ts.full = false)
    {r : List (token D)} {c' : istream D} (h : Offers A ts r c') (t : token D) :
    Offers A { ts with buffer := t, full := true } (t :: r) c' := by
  have := (offers_iff_lex A hf r c').1 h
  simp [Offers, this]

/-! ## Steps of the grammar functions -/

theorem of_ts_get (A : Arith D) {α : Type} {s : State D} {t : token D} {r : List (token D)}
    {c' : istream D} (h : Offers A s.ts (t :: r) c') :
    ∃ ts1, ts1.full = false ∧ Offers A ts1 r c' ∧
      ∀ k : token D → State D → Res D α,
        Res.of_ts s (get A s.ts) k = k t { s with ts := ts1 } := by
  obtain ⟨ts1, h1, h2, h3⟩ := get_of_offers A h
  exact ⟨ts1, h2, h3, fun k => by simp [Res.of_ts, h1]⟩

theorem of_ts_putback {α : Type} {s : State D} (hf : s.ts.full = false) (t : token D)
    (k : Unit → State D → Res D α) :
    Res.of_ts s (putback t s.ts) k
      = k () { s with ts := { s.ts with buffer := t, full := true } } := by
  simp [Res.of_ts, putback, hf]

theorem Conv.step {α β : Type} {F : Nat → Res D β} {f : Nat → Res D α}
    {g : Nat → α → State D → Res D β} {a : α} {s1 : State D} {r : Res D β}
    (hF : ∀ n, F (n + 1) = (f n).bind (g n)) (hf : Conv f (.ok a s1))
    (hg : Conv (fun n => g n a s1) r) : Conv F r := by
  obtain ⟨n0, h0⟩ := hf
  obtain ⟨n1, h1⟩ := hg
  refine ⟨max n0 n1 + 1, fun n hn => ?_⟩
  obtain ⟨m, rfl⟩ : ∃ m, n = m + 1 := ⟨n - 1, by omega⟩
  rw [hF, h0 m (by omega)]
  simpa [Res.bind] using h1 m (by omega)

theorem Conv.step_err {α β : Type} {F : Nat → Res D β} {f : Nat → Res D α}
    {g : Nat → α → State D → Res D β} {e : Err} {s1 : State D}
    (hF : ∀ n, F (n + 1) = (f n).bind (g n)) (hf : Conv f (.err e s1)) :
    Conv F (.err e s1) := by
  obtain ⟨n0, h0⟩ := hf
  refine ⟨n0 + 1, fun n hn => ?_⟩
  obtain ⟨m, rfl⟩ : ∃ m, n = m + 1 := ⟨n - 1, by omega⟩
  rw [hF, h0 m (by omega)]
  rfl

theorem Conv.succ {α : Type} {F : Nat → Res D α} {r : Res D α}
    (hF : ∀ n, F (n + 1) = r) : Conv F r :=
  ⟨1, fun n hn => by
    obtain ⟨m, rfl⟩ : ∃ m, n = m + 1 := ⟨n - 1, by omega⟩
    exact hF m⟩

theorem primary_succ (A : Arith D) (n : Nat) (s : State D) :
    primary A (n + 1) s =
    Res.of_ts s (get A s.ts) fun t s1 =>
      if t.kind = '(' then
        (expression A n s1).bind fun d s2 =>
          Res.of_ts s2 (get A s2.ts) fun t2 s3 =>
            if t2.kind ≠ ')' then .err .rparen_expected s3 else .ok d s3
      else if t.kind = number then .ok t.value s1
      else if t.kind = '-' then
        (primary A n s1).bind fun v s2 => .ok (A.neg v) s2
      else if t.kind = var then
        Res.of_ts s1 (get A s1.ts) fun next_t s2 =>
          if next_t.kind = assignment then
            (expression A n s2).bind fun val s3 =>
              .ok val { s3 with vars := store t.name val s3.vars }
          else
            Res.of_ts s2 (putback next_t s2.ts) fun _ s3 =>
              match s3.vars.lookup t.name with
              | some v => .ok v s3
              | none => .err (.undefined_symbol t.name) s3
      else .err .primary_expected s1 := by
  rw [primary]

theorem term_loop_succ (A : Arith D) (n : Nat) (left : D) (s : State D) :
    term_loop A (n + 1) left s =
    Res.of_ts s (get A s.ts) fun t s1 =>
      if t.kind = '*' then
        (primary A n s1).bind fun v s2 => term_loop A n (A.mul left v) s2
      else if t.kind = '/' then
        (primary A n s1).bind fun d s2 =>
          if A.isZero d then .err .divide_by_zero s2
          else term_loop A n (A.div left d) s2
      else if t.kind = '%' then
        (primary A n s1).bind fun d s2 =>
          if A.isZero d then .err .divide_by_zero s2
          else term_loop A n (A.fmod left d) s2
      else
        Res.of_ts s1 (putback t s1.ts) fun _ s2 => .ok left s2 := by
  rw [term_loop]

theorem term_succ (A : Arith D) (n : Nat) (s : State D) :
    term A (n + 1) s = (primary A n s).bind fun left s1 => term_loop A n left s1 := by
  rw [term]

theorem expression_loop_succ (A : Arith D) (n : Nat) (left : D) (s : State D) :
    expression_loop A (n + 1) left s =
    Res.of_ts s (get A s.ts) fun t s1 =>
      if t.kind = '+' then
        (term A n s1).bind fun v s2 => expression_loop A n (A.add left v) s2
      else if t.kind = '-' then
        (term A n s1).bind fun v s2 => expression_loop A n (A.sub left v) s2
      else
        Res.of_ts s1 (putback t s1.ts) fun _ s2 => .ok left s2 := by
  rw [expression_loop]

theorem expression_succ (A : Arith D) (n : Nat) (s : State D) :
    expression A (n + 1) s = (term A n s).bind fun left s1 => expression_loop A n left s1 := by
  rw [expression]

/-! ## The parser agrees with the grammar -/

theorem offers_buffered (A : Arith D) {ts : token_stream D} {k : token D} {tl : List (token D)}
    {c' : istream D} (hf : ts.full = true) (hb : ts.buffer = k) (hl : Lex A ts.cin tl c') :
    Offers A ts (k :: tl) c' := by
  simp [Offers, hf, hb, hl]

theorem Returns.runs (A : Arith D) {f : Nat → Res D D} {x : Val D} {k : token D}
    {tl : List (token D)} {c' : istream D} (h : Returns A f x k tl c') :
    Runs A f x (k :: tl) c' := by
  cases x with
  | ok v m =>
    obtain ⟨s1, h1, h2, h3, h4, h5⟩ := h
    exact ⟨s1, h1, offers_buffered A h2 h3 h4, h5⟩
  | err e m => exact h

theorem term_exit (A : Arith D) {s : State D} {x : Val D} {k : token D} {tl : List (token D)}
    {c' : istream D} (h : Heads A (fun n => term A n s) (term_loop A) x (k :: tl) c')
    (h1 : k.kind ≠ '*') (h2 : k.kind ≠ '/') (h3 : k.kind ≠ '%') :
    Returns A (fun n => term A n s) x k tl c' := by
  cases x with
  | err e m => exact h
  | ok v m =>
    obtain ⟨s1, hv, ho, hc⟩ := h
    obtain ⟨ts1, hf, ho1, hk⟩ := of_ts_get (α := D) A ho
    refine ⟨{ s1 with ts := { ts1 with buffer := k, full := true } }, hv, rfl, rfl,
      (offers_iff_lex A hf tl c').1 ho1, hc _ (Conv.succ fun n => ?_)⟩
    rw [term_loop_succ, hk, if_neg h1, if_neg h2, if_neg h3, of_ts_putback hf]

theorem expression_exit (A : Arith D) {s : State D} {x : Val D} {k : token D}
    {tl : List (token D)} {c' : istream D}
    (h : Heads A (fun n => expression A n s) (expression_loop A) x (k :: tl) c')
    (h1 : k.kind ≠ '+') (h2 : k.kind ≠ '-') :
    Returns A (fun n => expression A n s) x k tl c' := by
  cases x with
  | err e m => exact h
  | ok v m =>
    obtain ⟨s1, hv, ho, hc⟩ := h
    obtain ⟨ts1, hf, ho1, hk⟩ := of_ts_get (α := D) A ho
    refine ⟨{ s1 with ts := { ts1 with buffer := k, full := true } }, hv, rfl, rfl,
      (offers_iff_lex A hf tl c').1 ho1, hc _ (Conv.succ fun n => ?_)⟩
    rw [expression_loop_succ, hk, if_neg h1, if_neg h2, of_ts_putback hf]

theorem toks_kind_ne_print (A : Arith D) {l : Level} (tree : Tree D l) :
    ∀ y ∈ tree.toks A, y.kind ≠ print := by
  induction tree with
  | num v => simp [Tree.toks, token.of_value, number, print]
  | paren e ih =>
    intro y hy
    simp only [Tree.toks, List.mem_cons, List.mem_append, List.not_mem_nil, or_false] at hy
    rcases hy with rfl | h | rfl
    · simp [token.of_kind, print]
    · exact ih y h
    · simp [token.of_kind, print]
  | neg p ih =>
    simp only [Tree.toks, List.mem_cons]
    rintro y (rfl | h)
    · simp [token.of_kind, print]
    · exact ih y h
  | ref name => simp [Tree.toks, token.of_name, var, print]
  | assign name e ih =>
    simp only [Tree.toks, List.mem_cons]
    rintro y (rfl | rfl | h)
    · simp [token.of_name, var, print]
    · simp [token.of_kind, assignment, print]
    · exact ih y h
  | of_primary p ih => exact ih
  | of_term t ih => exact ih
  | mul t p iht ihp | div t p iht ihp | mod t p iht ihp | add t p iht ihp | sub t p iht ihp =>
    simp only [Tree.toks, List.mem_cons, List.mem_append]
    rintro y (h | rfl | h)
    · exact iht y h
    · simp [token.of_kind, print]
    · exact ihp y h

theorem pstop_rparen {l : Level} (tree : Tree D l) : tree.pstop ')' := by
  induction tree with
  | num v => trivial
  | paren e _ => trivial
  | neg p ih => exact ih
  | ref name => simp [Tree.pstop, assignment]
  | assign name e ih => exact ⟨ih, by simp [is_operator]⟩
  | of_primary p ih => exact ih
  | of_term t ih => exact ih
  | mul t p _ ihp | div t p _ ihp | mod t p _ ihp | add t p _ ihp | sub t p _ ihp => exact ihp

theorem goal_num (A : Arith D) (v : D) : Goal A (Tree.num v) := by
  intro s k tl c' _ _ ho
  simp only [Tree.toks, List.singleton_append] at ho
  obtain ⟨ts1, _, ho1, hk⟩ := of_ts_get (α := D) A ho
  refine ⟨{ s with ts := ts1 }, rfl, ho1, Conv.succ fun n => ?_⟩
  rw [primary_succ, hk]
  simp [token.of_value, number]

theorem goal_paren (A : Arith D) (e : Tree D .expression) (ih : Goal A e) :
    Goal A (Tree.paren e) := by
  intro s k tl c' hwf _ ho
  simp only [Tree.toks, List.cons_append, List.append_assoc, List.singleton_append] at ho
  obtain ⟨ts1, _, ho1, hk⟩ := of_ts_get (α := D) A ho
  have hF : ∀ n, primary A (n + 1) s = (expression A n { s with ts := ts1 }).bind
      (fun d s2 => Res.of_ts s2 (get A s2.ts) fun t2 s3 =>
        if t2.kind ≠ ')' then .err .rparen_expected s3 else .ok d s3) := by
    intro n
    rw [primary_succ, hk]
    simp [token.of_kind]
  have h1 : Returns A (fun n => expression A n { s with ts := ts1 }) (e.eval A s.vars)
      (token.of_kind A ')') (k :: tl) c' :=
    expression_exit A (ih { s with ts := ts1 } (token.of_kind A ')') (k :: tl) c' hwf
      (pstop_rparen e) (by simp [token.of_kind]) (by simp [token.of_kind])
      (by simp [token.of_kind]) ho1) (by simp [token.of_kind]) (by simp [token.of_kind])
  simp only [Tree.eval]
  cases hx : e.eval A s.vars with
  | err er m =>
    rw [hx] at h1
    obtain ⟨s2, rem, hv, ho2, hrem, hc⟩ := h1
    refine ⟨s2, rem ++ [token.of_kind A ')'], hv, by simpa using ho2, ?_, Conv.step_err hF hc⟩
    intro y hy
    rcases List.mem_append.1 hy with h | h
    · exact hrem y h
    · simp only [List.mem_singleton] at h
      subst h
      simp [token.of_kind, print]
  | ok v m =>
    rw [hx] at h1
    obtain ⟨s2, hv, hfull, hbuf, hlex, hc⟩ := h1
    refine ⟨{ s2 with ts := { s2.ts with full := false } }, hv,
      (offers_iff_lex A rfl (k :: tl) c').2 hlex, Conv.step hF hc ⟨0, fun n _ => ?_⟩⟩
    simp [Res.of_ts, get, hfull, hbuf, token.of_kind]

theorem goal_neg (A : Arith D) (p : Tree D .primary) (ih : Goal A p) :
    Goal A (Tree.neg p) := by
  intro s k tl c' hwf hps ho
  simp only [Tree.toks, List.cons_append] at ho
  obtain ⟨ts1, _, ho1, hk⟩ := of_ts_get (α := D) A ho
  have hF : ∀ n, primary A (n + 1) s = (primary A n { s with ts := ts1 }).bind
      (fun v s2 => .ok (A.neg v) s2) := by
    intro n
    rw [primary_succ, hk]
    simp [token.of_kind, number]
  have h1 : Runs A (fun n => primary A n { s with ts := ts1 }) (p.eval A s.vars) (k :: tl) c' :=
    ih { s with ts := ts1 } k tl c' hwf hps ho1
  simp only [Tree.eval]
  cases hx : p.eval A s.vars with
  | err er m =>
    rw [hx] at h1
    obtain ⟨s2, rem, hv, ho2, hrem, hc⟩ := h1
    exact ⟨s2, rem, hv, ho2, hrem, Conv.step_err hF hc⟩
  | ok v m =>
    rw [hx] at h1
    obtain ⟨s2, hv, ho2, hc⟩ := h1
    exact ⟨s2, hv, ho2, Conv.step hF hc ⟨0, fun n _ => rfl⟩⟩

theorem goal_ref (A : Arith D) (name : List Char) : Goal A (Tree.ref (D := D) name) := by
  intro s k tl c' _ hps ho
  simp only [Tree.toks, List.singleton_append] at ho
  obtain ⟨ts1, _, ho1, hk⟩ := of_ts_get (α := D) A ho
  obtain ⟨ts2, hf2, ho2, hk2⟩ := of_ts_get (α := D) (s := { s with ts := ts1 }) A ho1
  have hk2' : ∀ k1 : token D → State D → Res D D,
      Res.of_ts ⟨ts1, s.vars⟩ (get A ts1) k1 = k1 k ⟨ts2, s.vars⟩ := hk2
  have hne : k.kind ≠ assignment := hps
  have hF : ∀ n, primary A (n + 1) s =
      match s.vars.lookup name with
      | some v => .ok v ⟨{ ts2 with buffer := k, full := true }, s.vars⟩
      | none => .err (.undefined_symbol name) ⟨{ ts2 with buffer := k, full := true }, s.vars⟩ := by
    intro n
    rw [primary_succ, hk]
    simp only [token.of_name, var, number, if_true, if_false]
    rw [hk2', if_neg hne, of_ts_putback hf2]
    simp
  have hoff := offers_putback A hf2 ho2 k
  simp only [Tree.eval]
  cases hx : s.vars.lookup name with
  | none =>
    simp only [hx] at hF
    exact ⟨⟨{ ts2 with buffer := k, full := true }, s.vars⟩, [], rfl, hoff, by simp,
      Conv.succ hF⟩
  | some v =>
    simp only [hx] at hF
    exact ⟨⟨{ ts2 with buffer := k, full := true }, s.vars⟩, rfl, hoff, Conv.succ hF⟩

theorem goal_assign (A : Arith D) (name : List Char) (e : Tree D .expression) (ih : Goal A e) :
    Goal A (Tree.assign name e) := by
  intro s k tl c' hwf hps ho
  simp only [Tree.toks, List.cons_append] at ho
  obtain ⟨ts1, _, ho1, hk⟩ := of_ts_get (α := D) A ho
  obtain ⟨ts2, _, ho2, hk2⟩ := of_ts_get (α := D) (s := { s with ts := ts1 }) A ho1
  have hk2' : ∀ k1 : token D → State D → Res D D,
      Res.of_ts ⟨ts1, s.vars⟩ (get A ts1) k1
        = k1 (token.of_kind A assignment) ⟨ts2, s.vars⟩ := hk2
  have hop : ¬ is_operator k.kind := hps.2
  simp only [is_operator, not_or] at hop
  have hF : ∀ n, primary A (n + 1) s = (expression A n { s with ts := ts2 }).bind
      (fun val s3 => .ok val { s3 with vars := store name val s3.vars }) := by
    intro n
    rw [primary_succ, hk]
    simp only [token.of_name, var, number, if_true, if_false]
    rw [hk2']
    simp [token.of_kind]
  have h1 : Returns A (fun n => expression A n { s with ts := ts2 }) (e.eval A s.vars)
      k tl c' :=
    expression_exit A (ih { s with ts := ts2 } k tl c' hwf hps.1 hop.1 hop.2.1 hop.2.2.1 ho2)
      hop.2.2.2.1 hop.2.2.2.2
  simp only [Tree.eval]
  cases hx : e.eval A s.vars with
  | err er m =>
    rw [hx] at h1
    obtain ⟨s2, rem, hv, ho3, hrem, hc⟩ := h1
    exact ⟨s2, rem, hv, ho3, hrem, Conv.step_err hF hc⟩
  | ok v m =>
    rw [hx] at h1
    obtain ⟨s2, hv, hfull, hbuf, hlex, hc⟩ := h1
    refine ⟨{ s2 with vars := store name v s2.vars }, by simp [hv],
      offers_buffered A hfull hbuf hlex, Conv.step hF hc ⟨0, fun n _ => rfl⟩⟩

theorem goal_of_primary (A : Arith D) (p : Tree D .primary) (ih : Goal A p) :
    Goal A (Tree.of_primary p) := by
  intro s k tl c' hwf hps ho
  have h1 : Runs A (fun n => primary A n s) (p.eval A s.vars) (k :: tl) c' :=
    ih s k tl c' hwf hps ho
  simp only [Tree.eval]
  cases hx : p.eval A s.vars with
  | err er m =>
    rw [hx] at h1
    obtain ⟨s1, rem, hv, ho1, hrem, hc⟩ := h1
    exact ⟨s1, rem, hv, ho1, hrem, Conv.step_err (fun n => term_succ A n s) hc⟩
  | ok v m =>
    rw [hx] at h1
    obtain ⟨s1, hv, ho1, hc⟩ := h1
    exact ⟨s1, hv, ho1, fun r hr => Conv.step (fun n => term_succ A n s) hc hr⟩

theorem goal_mul (A : Arith D) (t : Tree D .term) (p : Tree D .primary) (iht : Goal A t)
    (ihp : Goal A p) : Goal A (Tree.mul t p) := by
  intro s k tl c' hwf hps ho
  obtain ⟨hwt, hpt, hwp⟩ := hwf
  simp only [Tree.toks, List.append_assoc, List.cons_append] at ho
  have h1 := iht s (token.of_kind A '*') (p.toks A ++ k :: tl) c' hwt hpt ho
  simp only [Tree.eval]
  cases hx : t.eval A s.vars with
  | err er m =>
    rw [hx] at h1
    obtain ⟨s1, rem, hv, ho1, hrem, hc⟩ := h1
    refine ⟨s1, rem ++ token.of_kind A '*' :: p.toks A, hv, by simpa using ho1, ?_, hc⟩
    intro y hy
    rcases List.mem_append.1 hy with h | h
    · exact hrem y h
    · rcases List.mem_cons.1 h with h | h
      · subst h
        simp [token.of_kind, print]
      · exact toks_kind_ne_print A p y h
  | ok a m1 =>
    rw [hx] at h1
    obtain ⟨s1, hv, ho1, hc⟩ := h1
    obtain ⟨ts1, _, ho2, hk⟩ := of_ts_get (α := D) A ho1
    have h2 : Runs A (fun n => primary A n { s1 with ts := ts1 }) (p.eval A s1.vars)
        (k :: tl) c' := ihp { s1 with ts := ts1 } k tl c' hwp hps ho2
    have hF : ∀ n, term_loop A (n + 1) a s1 = (primary A n { s1 with ts := ts1 }).bind
        (fun d s2 => term_loop A n (A.mul a d) s2) := by
      intro n
      rw [term_loop_succ, hk]
      simp [token.of_kind]
    simp only [Val.bind]
    subst hv
    cases hy : p.eval A s1.vars with
    | err er m =>
      rw [hy] at h2
      obtain ⟨s2, rem, hv2, ho3, hrem, hc2⟩ := h2
      exact ⟨s2, rem, hv2, ho3, hrem, hc _ (Conv.step_err hF hc2)⟩
    | ok b m2 =>
      rw [hy] at h2
      obtain ⟨s2, hv2, ho3, hc2⟩ := h2
      exact ⟨s2, hv2, ho3, fun r hr => hc r (Conv.step hF hc2 hr)⟩

theorem goal_div (A : Arith D) (t : Tree D .term) (p : Tree D .primary) (iht : Goal A t)
    (ihp : Goal A p) : Goal A (Tree.div t p) := by
  intro s k tl c' hwf hps ho
  obtain ⟨hwt, hpt, hwp⟩ := hwf
  simp only [Tree.toks, List.append_assoc, List.cons_append] at ho
  have h1 := iht s (token.of_kind A '/') (p.toks A ++ k :: tl) c' hwt hpt ho
  simp only [Tree.eval]
  cases hx : t.eval A s.vars with
  | err er m =>
    rw [hx] at h1
    obtain ⟨s1, rem, hv, ho1, hrem, hc⟩ := h1
    refine ⟨s1, rem ++ token.of_kind A '/' :: p.toks A, hv, by simpa using ho1, ?_, hc⟩
    intro y hy
    rcases List.mem_append.1 hy with h | h
    · exact hrem y h
    · rcases List.mem_cons.1 h with h | h
      · subst h
        simp [token.of_kind, print]
      · exact toks_kind_ne_print A p y h
  | ok a m1 =>
    rw [hx] at h1
    obtain ⟨s1, hv, ho1, hc⟩ := h1
    obtain ⟨ts1, _, ho2, hk⟩ := of_ts_get (α := D) A ho1
    have h2 : Runs A (fun n => primary A n { s1 with ts := ts1 }) (p.eval A s1.vars)
        (k :: tl) c' := ihp { s1 with ts := ts1 } k tl c' hwp hps ho2
    have hF : ∀ n, term_loop A (n + 1) a s1 = (primary A n { s1 with ts := ts1 }).bind
        (fun d s2 => if A.isZero d then .err .divide_by_zero s2 else term_loop A n (A.div a d) s2) := by
      intro n
      rw [term_loop_succ, hk]
      simp [token.of_kind]
    simp only [Val.bind]
    subst hv
    cases hy : p.eval A s1.vars with
    | err er m =>
      rw [hy] at h2
      obtain ⟨s2, rem, hv2, ho3, hrem, hc2⟩ := h2
      exact ⟨s2, rem, hv2, ho3, hrem, hc _ (Conv.step_err hF hc2)⟩
    | ok b m2 =>
      rw [hy] at h2
      obtain ⟨s2, hv2, ho3, hc2⟩ := h2
      by_cases hz : A.isZero b = true
      · simp only [hz, if_true]
        exact ⟨s2, [], hv2, ho3, by simp,
          hc _ (Conv.step hF hc2 ⟨0, fun n _ => by simp [hz]⟩)⟩
      · simp only [hz, if_false]
        refine ⟨s2, hv2, ho3, fun r hr => hc r (Conv.step hF hc2 ?_)⟩
        obtain ⟨n1, h1⟩ := hr
        exact ⟨n1, fun n hn => by simpa [hz] using h1 n hn⟩

theorem goal_mod (A : Arith D) (t : Tree D .term) (p : Tree D .primary) (iht : Goal A t)
    (ihp : Goal A p) : Goal A (Tree.mod t p) := by
  intro s k tl c' hwf hps ho
  obtain ⟨hwt, hpt, hwp⟩ := hwf
  simp only [Tree.toks, List.append_assoc, List.cons_append] at ho
  have h1 := iht s (token.of_kind A '%') (p.toks A ++ k :: tl) c' hwt hpt ho
  simp only [Tree.eval]
  cases hx : t.eval A s.vars with
  | err er m =>
    rw [hx] at h1
    obtain ⟨s1, rem, hv, ho1, hrem, hc⟩ := h1
    refine ⟨s1, rem ++ token.of_kind A '%' :: p.toks A, hv, by simpa using ho1, ?_, hc⟩
    intro y hy
    rcases List.mem_append.1 hy with h | h
    · exact hrem y h
    · rcases List.mem_cons.1 h with h | h
      · subst h
        simp [token.of_kind, print]
      · exact toks_kind_ne_print A p y h
  | ok a m1 =>
    rw [hx] at h1
    obtain ⟨s1, hv, ho1, hc⟩ := h1
    obtain ⟨ts1, _, ho2, hk⟩ := of_ts_get (α := D) A ho1
    have h2 : Runs A (fun n => primary A n { s1 with ts := ts1 }) (p.eval A s1.vars)
        (k :: tl) c' := ihp { s1 with ts := ts1 } k tl c' hwp hps ho2
    have hF : ∀ n, term_loop A (n + 1) a s1 = (primary A n { s1 with ts := ts1 }).bind
        (fun d s2 => if A.isZero d then .err .divide_by_zero s2 else term_loop A n (A.fmod a d) s2) := by
      intro n
      rw [term_loop_succ, hk]
      simp [token.of_kind]
    simp only [Val.bind]
    subst hv
    cases hy : p.eval A s1.vars with
    | err er m =>
      rw [hy] at h2
      obtain ⟨s2, rem, hv2, ho3, hrem, hc2⟩ := h2
      exact ⟨s2, rem, hv2, ho3, hrem, hc _ (Conv.step_err hF hc2)⟩
    | ok b m2 =>
      rw [hy] at h2
      obtain ⟨s2, hv2, ho3, hc2⟩ := h2
      by_cases hz : A.isZero b = true
      · simp only [hz, if_true]
        exact ⟨s2, [], hv2, ho3, by simp,
          hc _ (Conv.step hF hc2 ⟨0, fun n _ => by simp [hz]⟩)⟩
      · simp only [hz, if_false]
        refine ⟨s2, hv2, ho3, fun r hr => hc r (Conv.step hF hc2 ?_)⟩
        obtain ⟨n1, h1⟩ := hr
        exact ⟨n1, fun n hn => by simpa [hz] using h1 n hn⟩

theorem goal_of_term (A : Arith D) (t : Tree D .term) (ih : Goal A t) :
    Goal A (Tree.of_term t) := by
  intro s k tl c' hwf hps hk1 hk2 hk3 ho
  have h1 : Returns A (fun n => term A n s) (t.eval A s.vars) k tl c' :=
    term_exit A (ih s k tl c' hwf hps ho) hk1 hk2 hk3
  simp only [Tree.eval]
  cases hx : t.eval A s.vars with
  | err er m =>
    rw [hx] at h1
    obtain ⟨s1, rem, hv, ho1, hrem, hc⟩ := h1
    exact ⟨s1, rem, hv, ho1, hrem, Conv.step_err (fun n => expression_succ A n s) hc⟩
  | ok v m =>
    rw [hx] at h1
    obtain ⟨s1, hv, hfull, hbuf, hlex, hc⟩ := h1
    exact ⟨s1, hv, offers_buffered A hfull hbuf hlex,
      fun r hr => Conv.step (fun n => expression_succ A n s) hc hr⟩

theorem goal_add (A : Arith D) (e : Tree D .expression) (t : Tree D .term) (ihe : Goal A e)
    (iht : Goal A t) : Goal A (Tree.add e t) := by
  intro s k tl c' hwf hps hk1 hk2 hk3 ho
  obtain ⟨hwe, hpe, hwt⟩ := hwf
  simp only [Tree.toks, List.append_assoc, List.cons_append] at ho
  have h1 := ihe s (token.of_kind A '+') (t.toks A ++ k :: tl) c' hwe hpe
    (by simp [token.of_kind]) (by simp [token.of_kind]) (by simp [token.of_kind]) ho
  simp only [Tree.eval]
  cases hx : e.eval A s.vars with
  | err er m =>
    rw [hx] at h1
    obtain ⟨s1, rem, hv, ho1, hrem, hc⟩ := h1
    refine ⟨s1, rem ++ token.of_kind A '+' :: t.toks A, hv, by simpa using ho1, ?_, hc⟩
    intro y hy
    rcases List.mem_append.1 hy with h | h
    · exact hrem y h
    · rcases List.mem_cons.1 h with h | h
      · subst h
        simp [token.of_kind, print]
      · exact toks_kind_ne_print A t y h
  | ok a m1 =>
    rw [hx] at h1
    obtain ⟨s1, hv, ho1, hc⟩ := h1
    obtain ⟨ts1, _, ho2, hk⟩ := of_ts_get (α := D) A ho1
    have h2 : Returns A (fun n => term A n { s1 with ts := ts1 }) (t.eval A s1.vars)
        k tl c' := term_exit A (iht { s1 with ts := ts1 } k tl c' hwt hps ho2) hk1 hk2 hk3
    have hF : ∀ n, expression_loop A (n + 1) a s1 = (term A n { s1 with ts := ts1 }).bind
        (fun v s2 => expression_loop A n (A.add a v) s2) := by
      intro n
      rw [expression_loop_succ, hk]
      simp [token.of_kind]
    simp only [Val.bind]
    subst hv
    cases hy : t.eval A s1.vars with
    | err er m =>
      rw [hy] at h2
      obtain ⟨s2, rem, hv2, ho3, hrem, hc2⟩ := h2
      exact ⟨s2, rem, hv2, ho3, hrem, hc _ (Conv.step_err hF hc2)⟩
    | ok b m2 =>
      rw [hy] at h2
      obtain ⟨s2, hv2, hfull, hbuf, hlex, hc2⟩ := h2
      exact ⟨s2, hv2, offers_buffered A hfull hbuf hlex,
        fun r hr => hc r (Conv.step hF hc2 hr)⟩

theorem goal_sub (A : Arith D) (e : Tree D .expression) (t : Tree D .term) (ihe : Goal A e)
    (iht : Goal A t) : Goal A (Tree.sub e t) := by
  intro s k tl c' hwf hps hk1 hk2 hk3 ho
  obtain ⟨hwe, hpe, hwt⟩ := hwf
  simp only [Tree.toks, List.append_assoc, List.cons_append] at ho
  have h1 := ihe s (token.of_kind A '-') (t.toks A ++ k :: tl) c' hwe hpe
    (by simp [token.of_kind]) (by simp [token.of_kind]) (by simp [token.of_kind]) ho
  simp only [Tree.eval]
  cases hx : e.eval A s.vars with
  | err er m =>
    rw [hx] at h1
    obtain ⟨s1, rem, hv, ho1, hrem, hc⟩ := h1
    refine ⟨s1, rem ++ token.of_kind A '-' :: t.toks A, hv, by simpa using ho1, ?_, hc⟩
    intro y hy
    rcases List.mem_append.1 hy with h | h
    · exact hrem y h
    · rcases List.mem_cons.1 h with h | h
      · subst h
        simp [token.of_kind, print]
      · exact toks_kind_ne_print A t y h
  | ok a m1 =>
    rw [hx] at h1
    obtain ⟨s1, hv, ho1, hc⟩ := h1
    obtain ⟨ts1, _, ho2, hk⟩ := of_ts_get (α := D) A ho1
    have h2 : Returns A (fun n => term A n { s1 with ts := ts1 }) (t.eval A s1.vars)
        k tl c' := term_exit A (iht { s1 with ts := ts1 } k tl c' hwt hps ho2) hk1 hk2 hk3
    have hF : ∀ n, expression_loop A (n + 1) a s1 = (term A n { s1 with ts := ts1 }).bind
        (fun v s2 => expression_loop A n (A.sub a v) s2) := by
      intro n
      rw [expression_loop_succ, hk]
      simp [token.of_kind]
    simp only [Val.bind]
    subst hv
    cases hy : t.eval A s1.vars with
    | err er m =>
      rw [hy] at h2
      obtain ⟨s2, rem, hv2, ho3, hrem, hc2⟩ := h2
      exact ⟨s2, rem, hv2, ho3, hrem, hc _ (Conv.step_err hF hc2)⟩
    | ok b m2 =>
      rw [hy] at h2
      obtain ⟨s2, hv2, hfull, hbuf, hlex, hc2⟩ := h2
      exact ⟨s2, hv2, offers_buffered A hfull hbuf hlex,
        fun r hr => hc r (Conv.step hF hc2 hr)⟩

/-- The parser agrees with the grammar on every derivation. -/
theorem parser_agrees (A : Arith D) {l : Level} (tree : Tree D l) : Goal A tree := by
  induction tree with
  | num v => exact goal_num A v
  | paren e ih => exact goal_paren A e ih
  | neg p ih => exact goal_neg A p ih
  | ref name => exact goal_ref A name
  | assign name e ih => exact goal_assign A name e ih
  | of_primary p ih => exact goal_of_primary A p ih
  | mul t p iht ihp => exact goal_mul A t p iht ihp
  | div t p iht ihp => exact goal_div A t p iht ihp
  | mod t p iht ihp => exact goal_mod A t p iht ihp
  | of_term t ih => exact goal_of_term A t ih
  | add e t ihe iht => exact goal_add A e t ihe iht
  | sub e t ihe iht => exact goal_sub A e t ihe iht

theorem arith_pstop {l : Level} (tree : Tree D l) (h : tree.arith) (k : Char) : tree.pstop k := by
  induction tree with
  | num v => trivial
  | paren e _ => trivial
  | neg p ih => exact ih h
  | ref name => exact h.elim
  | assign name e _ => exact h.elim
  | of_primary p ih => exact ih h
  | of_term t ih => exact ih h
  | mul t p _ ihp | div t p _ ihp | mod t p _ ihp | add t p _ ihp | sub t p _ ihp =>
    exact ihp h.2

theorem arith_wf {l : Level} (tree : Tree D l) (h : tree.arith) : tree.wf := by
  induction tree with
  | num v => trivial
  | paren e ih => exact ih h
  | neg p ih => exact ih h
  | ref name => trivial
  | assign name e _ => exact h.elim
  | of_primary p ih => exact ih h
  | of_term t ih => exact ih h
  | mul t p iht ihp | div t p iht ihp | mod t p iht ihp | add t p iht ihp | sub t p iht ihp =>
    exact ⟨iht h.1, arith_pstop _ h.1 _, ihp h.2⟩

theorem arith_eval_vars (A : Arith D) {l : Level} (tree : Tree D l) (h : tree.arith)
    (m : List (List Char × D)) :
    (∃ v, tree.eval A m = .ok v m) ∨ (∃ e, tree.eval A m = .err e m) := by
  induction tree with
  | num v => exact Or.inl ⟨v, rfl⟩
  | paren e ih => exact ih h
  | neg p ih =>
    rcases ih h with ⟨v, hv⟩ | ⟨e, he⟩
    · exact Or.inl ⟨A.neg v, by simp [Tree.eval, hv, Val.bind]⟩
    · exact Or.inr ⟨e, by simp [Tree.eval, he, Val.bind]⟩
  | ref name => exact h.elim
  | assign name e _ => exact h.elim
  | of_primary p ih => exact ih h
  | of_term t ih => exact ih h
  | mul t p iht ihp | add t p iht ihp | sub t p iht ihp =>
    rcases iht h.1 with ⟨a, ha⟩ | ⟨e, he⟩
    · rcases ihp h.2 with ⟨b, hb⟩ | ⟨e, he⟩
      · exact Or.inl (by simp [Tree.eval, ha, hb, Val.bind])
      · exact Or.inr ⟨e, by simp [Tree.eval, ha, he, Val.bind]⟩
    · exact Or.inr ⟨e, by simp [Tree.eval, he, Val.bind]⟩
  | div t p iht ihp | mod t p iht ihp =>
    rcases iht h.1 with ⟨a, ha⟩ | ⟨e, he⟩
    · rcases ihp h.2 with ⟨b, hb⟩ | ⟨e, he⟩
      · by_cases hz : A.isZero b = true
        · exact Or.inr (by simp [Tree.eval, ha, hb, Val.bind, hz])
        · exact Or.inl (by simp [Tree.eval, ha, hb, Val.bind, hz])
      · exact Or.inr ⟨e, by simp [Tree.eval, ha, he, Val.bind]⟩
    · exact Or.inr ⟨e, by simp [Tree.eval, he, Val.bind]⟩

/-- The complete run of `expression()` on a derivation followed by a token
that cannot continue it. -/
theorem expression_returns (A : Arith D) (e : Tree D .expression) (s : State D) (k : token D)
    (tl : List (token D)) (c' : istream D) (hwf : e.wf) (hps : e.pstop k.kind)
    (hk : ¬ is_operator k.kind) (ho : Offers A s.ts (e.toks A ++ k :: tl) c') :
    Returns A (fun n => expression A n s) (e.eval A s.vars) k tl c' := by
  simp only [is_operator, not_or] at hk
  exact expression_exit A (parser_agrees A e s k tl c' hwf hps hk.1 hk.2.1 hk.2.2.1 ho)
    hk.2.2.2.1 hk.2.2.2.2

/-! ## Evaluation of arithmetic expressions -/

/-- C1: for every derivation `e` of the expression grammar built from number
literals, parentheses, unary minus and the operators `+ - * / %`, whose value
in standard arithmetic is `v` (so no divisor is zero), `expression()` run on
the tokens of `e` followed by `;` returns `v`, with enough fuel, and leaves
the `;` in the buffer as the pending token; the variables are unchanged. -/
theorem expression_value (A : Arith D) (e : Tree D .expression) (s : State D)
    (c' : istream D) (v : D) (m : List (List Char × D)) (harith : e.arith)
    (hin : Offers A s.ts (e.toks A ++ [token.of_kind A ';']) c')
    (hval : e.eval A s.vars = .ok v m) :
    ∃ n0, ∀ n, n0 ≤ n →
      expression A n s = .ok v ⟨⟨true, token.of_kind A ';', c'⟩, s.vars⟩ := by
  have h := expression_returns A e s (token.of_kind A ';') [] c' (arith_wf e harith)
    (arith_pstop e harith _) (by simp [is_operator, token.of_kind]) hin
  rw [hval] at h
  obtain ⟨s1, hv, hfull, hbuf, hlex, n0, hn⟩ := h
  have hm : m = s.vars := by
    rcases arith_eval_vars A e harith s.vars with ⟨w, hw⟩ | ⟨er, he⟩
    · rw [hw] at hval
      injection hval with _ h2
      exact h2.symm
    · rw [he] at hval
      cases hval
  have hs : s1 = ⟨⟨true, token.of_kind A ';', c'⟩, s.vars⟩ := by
    obtain ⟨⟨f, b, c⟩, w⟩ := s1
    simp only [Lex] at hlex
    simp only at hv hfull hbuf
    subst hv hfull hbuf hlex hm
    rfl
  exact ⟨n0, fun n h0 => (hn n h0).trans (by rw [hs])⟩

/-- The expressions `1 + 2 * 3`, `(1 + 2) * 3` and `10 % 3` give 7, 9 and 1
in the exact arithmetic. -/
theorem expression_value_witness :
    (∃ n0, ∀ n, n0 ≤ n → expression ratArith n (initial ratArith "1 + 2 * 3;".toList 'a' 0)
        = .ok 7 ⟨⟨true, token.of_kind ratArith ';', ⟨[], false, 'a', 0⟩⟩, []⟩)
    ∧ (∃ n0, ∀ n, n0 ≤ n → expression ratArith n (initial ratArith "(1 + 2) * 3;".toList 'a' 0)
        = .ok 9 ⟨⟨true, token.of_kind ratArith ';', ⟨[], false, 'a', 0⟩⟩, []⟩)
    ∧ (∃ n0, ∀ n, n0 ≤ n → expression ratArith n (initial ratArith "10 % 3;".toList 'a' 0)
        = .ok 1 ⟨⟨true, token.of_kind ratArith ';', ⟨[], false, 'a', 0⟩⟩, []⟩) :=
  ⟨expression_value ratArith
      (.add (.of_term (.of_primary (.num 1))) (.mul (.of_primary (.num 2)) (.num 3)))
      _ _ _ [] (by simp [Tree.arith]) (by decide) (by decide),
   expression_value ratArith
      (.of_term (.mul (.of_primary (.paren
        (.add (.of_term (.of_primary (.num 1))) (.of_primary (.num 2))))) (.num 3)))
      _ _ _ [] (by simp [Tree.arith]) (by decide) (by decide),
   expression_value ratArith (.of_term (.mod (.of_primary (.num 10)) (.num 3)))
      _ _ _ [] (by simp [Tree.arith]) (by decide) (by decide)⟩

/-! ## The pushback buffer never overflows -/

theorem get_switch_err (A : Arith D) (ch : Char) (c c1 : istream D) (e : Err)
    (h : get_switch A ch c = .err e c1) : e = .bad_token := by
  unfold get_switch at h
  split_ifs at h
  · cases h2 : A.scan (ch :: c.input) with
    | none => simp [h2] at h
    | some x => simp [h2] at h
  · simp only at h
    split at h <;> simp at h
  · simp only at h
    split at h <;> simp at h
  · simp only [IRes.err.injEq] at h
    exact h.1.symm

theorem lex_err (A : Arith D) (c c1 : istream D) (e : Err) (h : lex A c = .err e c1) :
    e = .bad_token := by
  unfold lex at h
  split at h <;> exact get_switch_err A _ _ _ _ h

theorem get_result (A : Arith D) (ts : token_stream D) :
    (∃ t ts1, get A ts = .ok t ts1 ∧ ts1.full = false)
    ∨ (∃ ts1, get A ts = .err .bad_token ts1 ∧ ts1.full = false) := by
  unfold get
  by_cases hf : ts.full = true
  · exact Or.inl ⟨ts.buffer, { ts with full := false }, by simp [hf], rfl⟩
  · have hf' : ts.full = false := by simpa using hf
    cases hl : lex A ts.cin with
    | ok t c1 => exact Or.inl ⟨t, { ts with cin := c1 }, by simp [hf'], hf'⟩
    | err e c1 =>
      have := lex_err A _ _ _ hl
      subst this
      exact Or.inr ⟨{ ts with cin := c1 }, by simp [hf'], hf'⟩

theorem NoBufferFull.of_get (A : Arith D) {α : Type} (s : State D)
    (k : token D → State D → Res D α)
    (hk : ∀ t s1, s1.ts.full = false → NoBufferFull (k t s1)) :
    NoBufferFull (Res.of_ts s (get A s.ts) k) := by
  rcases get_result A s.ts with ⟨t, ts1, h, hf⟩ | ⟨ts1, h, _⟩
  · rw [h]
    exact hk t _ hf
  · rw [h]
    intro s'
    simp [Res.of_ts]

theorem NoBufferFull.of_putback {α : Type} (s : State D) (hf : s.ts.full = false) (t : token D)
    (k : Unit → State D → Res D α) (hk : ∀ s1, NoBufferFull (k () s1)) :
    NoBufferFull (Res.of_ts s (putback t s.ts) k) := by
  rw [of_ts_putback hf]
  exact hk _

theorem NoBufferFull.bind {α β : Type} {r : Res D α} {k : α → State D → Res D β}
    (hr : NoBufferFull r) (hk : ∀ a s1, NoBufferFull (k a s1)) : NoBufferFull (r.bind k) := by
  cases r with
  | ok a s1 => exact hk a s1
  | err e s1 =>
    intro s' h
    simp only [Res.bind] at h
    cases h
    exact hr _ rfl
  | timeout =>
    intro s' h
    simp [Res.bind] at h

theorem NoBufferFull.ok {α : Type} (a : α) (s : State D) : NoBufferFull (Res.ok a s) := by
  intro s' h
  cases h

theorem NoBufferFull.err {α : Type} (e : Err) (he : e ≠ .buffer_full) (s : State D) :
    NoBufferFull (Res.err (α := α) e s) := by
  intro s' h
  cases h
  exact he rfl

theorem NoBufferFull.timeout {α : Type} : NoBufferFull (Res.timeout : Res D α) := by
  intro s' h
  cases h

theorem parser_no_buffer_full (A : Arith D) (n : Nat) :
    (∀ s, NoBufferFull (primary A n s)) ∧ (∀ left s, NoBufferFull (term_loop A n left s))
    ∧ (∀ s, NoBufferFull (term A n s)) ∧ (∀ left s, NoBufferFull (expression_loop A n left s))
    ∧ (∀ s, NoBufferFull (expression A n s)) := by
  induction n with
  | zero =>
    refine ⟨?_, ?_, ?_, ?_, ?_⟩ <;> intros <;> simp only [primary, term_loop, term,
      expression_loop, expression] <;> exact NoBufferFull.timeout
  | succ n ih =>
    obtain ⟨hp, htl, ht, hel, he⟩ := ih
    refine ⟨?_, ?_, ?_, ?_, ?_⟩
    · intro s
      rw [primary_succ]
      refine NoBufferFull.of_get A s _ fun t s1 _ => ?_
      split_ifs
      · refine (he s1).bind fun d s2 => NoBufferFull.of_get A s2 _ fun t2 s3 _ => ?_
        split_ifs
        · exact NoBufferFull.err _ (by simp) _
        · exact NoBufferFull.ok _ _
      · exact NoBufferFull.ok _ _
      · exact (hp s1).bind fun v s2 => NoBufferFull.ok _ _
      · refine NoBufferFull.of_get A s1 _ fun t2 s2 hf2 => ?_
        split_ifs
        · exact (he s2).bind fun v s3 => NoBufferFull.ok _ _
        · refine NoBufferFull.of_putback s2 hf2 _ _ fun s3 => ?_
          split
          · exact NoBufferFull.ok _ _
          · exact NoBufferFull.err _ (by simp) _
      · exact NoBufferFull.err _ (by simp) _
    · intro left s
      rw [term_loop_succ]
      refine NoBufferFull.of_get A s _ fun t s1 hf1 => ?_
      split_ifs
      · exact (hp s1).bind fun v s2 => htl _ s2
      · refine (hp s1).bind fun v s2 => ?_
        split_ifs
        · exact NoBufferFull.err _ (by simp) _
        · exact htl _ s2
      · refine (hp s1).bind fun v s2 => ?_
        split_ifs
        · exact NoBufferFull.err _ (by simp) _
        · exact htl _ s2
      · exact NoBufferFull.of_putback s1 hf1 _ _ fun s2 => NoBufferFull.ok _ _
    · intro s
      rw [term_succ]
      exact (hp s).bind fun v s2 => htl _ s2
    · intro left s
      rw [expression_loop_succ]
      refine NoBufferFull.of_get A s _ fun t s1 hf1 => ?_
      split_ifs
      · exact (ht s1).bind fun v s2 => hel _ s2
      · exact (ht s1).bind fun v s2 => hel _ s2
      · exact NoBufferFull.of_putback s1 hf1 _ _ fun s2 => NoBufferFull.ok _ _
    · intro s
      rw [expression_succ]
      exact (ht s).bind fun v s2 => hel _ s2

theorem NoBufferFull.bind_ok {α β : Type} {r : Res D α} {k : α → State D → Res D β}
    (hr : NoBufferFull r) (hk : ∀ a s1, r = .ok a s1 → NoBufferFull (k a s1)) :
    NoBufferFull (r.bind k) := by
  cases r with
  | ok a s1 => exact hk a s1 rfl
  | err e s1 =>
    intro s' h
    simp only [Res.bind] at h
    cases h
    exact hr _ rfl
  | timeout =>
    intro s' h
    simp [Res.bind] at h

theorem skip_prints_spec (A : Arith D) (n : Nat) :
    ∀ (t : token D) (s : State D), s.ts.full = false →
      NoBufferFull (skip_prints A n t s)
      ∧ ∀ t1 s1, skip_prints A n t s = .ok t1 s1 → s1.ts.full = false := by
  induction n with
  | zero =>
    intro t s _
    exact ⟨NoBufferFull.timeout, fun t1 s1 h => by simp [skip_prints] at h⟩
  | succ n ih =>
    intro t s hf
    rw [skip_prints]
    split_ifs with hk
    · rcases get_result A s.ts with ⟨t2, ts2, h, hf2⟩ | ⟨ts2, h, _⟩
      · rw [h]
        exact ih t2 { s with ts := ts2 } hf2
      · rw [h]
        exact ⟨fun s' => by simp [Res.of_ts], fun t1 s1 h1 => by simp [Res.of_ts] at h1⟩
    · refine ⟨NoBufferFull.ok _ _, fun t1 s1 h => ?_⟩
      cases h
      exact hf

theorem try_block_no_buffer_full (A : Arith D) (n : Nat) (s : State D) :
    NoBufferFull (try_block A n s) := by
  unfold try_block
  refine NoBufferFull.of_get A s _ fun t s1 hf1 => ?_
  refine NoBufferFull.bind_ok (skip_prints_spec A n t s1 hf1).1 fun t1 s2 h2 => ?_
  have hf2 := (skip_prints_spec A n t s1 hf1).2 t1 s2 h2
  split_ifs
  · exact NoBufferFull.ok _ _
  · refine NoBufferFull.of_putback s2 hf2 _ _ fun s3 => ?_
    exact ((parser_no_buffer_full A n).2.2.2.2 s3).bind fun v s4 => NoBufferFull.ok _ _

theorem calculate_no_buffer_full (A : Arith D) (n : Nat) :
    ∀ (s : State D) (out : List (Output D)) (sf : State D),
      calculate A n s = some (out, sf) → Output.error .buffer_full ∉ out := by
  induction n with
  | zero =>
    intro s out sf h
    simp [calculate] at h
  | succ n ih =>
    intro s out sf h
    rw [calculate] at h
    split_ifs at h with hfail
    · cases h
      simp
    · have hnb := try_block_no_buffer_full A n s
      cases hr : try_block A n s with
      | timeout => simp [hr] at h
      | ok a s1 =>
        cases a with
        | none =>
          simp only [hr, Option.some.injEq, Prod.mk.injEq] at h
          rw [← h.1]
          simp
        | some v =>
          simp only [hr, Option.map_eq_some'] at h
          obtain ⟨⟨o1, s2⟩, h1, h2⟩ := h
          cases h2
          have := ih s1 o1 _ h1
          simpa using this
      | err e s1 =>
        simp only [hr, Option.map_eq_some'] at h
        obtain ⟨⟨o1, s2⟩, h1, h2⟩ := h
        cases h2
        have := ih _ o1 _ h1
        have he : e ≠ .buffer_full := fun he => hnb s1 (by rw [hr, he])
        simpa [Ne.symm he] using this

/-- C10: the error `putback() into a full buffer` never occurs.  From every
state (whatever the input, the buffer and the variables) and for every amount
of fuel, none of `primary()`, `term()`, `expression()` and the `try` block of
the session loop throws it, and no finished session has reported it. -/
theorem buffer_full_unreachable (A : Arith D) (n : Nat) (s : State D) :
    (∀ s1, primary A n s ≠ .err .buffer_full s1)
    ∧ (∀ s1, term A n s ≠ .err .buffer_full s1)
    ∧ (∀ s1, expression A n s ≠ .err .buffer_full s1)
    ∧ (∀ s1, try_block A n s ≠ .err .buffer_full s1)
    ∧ (∀ out sf, calculate A n s = some (out, sf) → Output.error .buffer_full ∉ out) :=
  ⟨(parser_no_buffer_full A n).1 s, (parser_no_buffer_full A n).2.2.1 s,
    (parser_no_buffer_full A n).2.2.2.2 s, try_block_no_buffer_full A n s,
    calculate_no_buffer_full A n s⟩

/-! ## Names: lookup and assignment -/

theorem primary_ref_run (A : Arith D) (name : List Char) (s : State D) (k : token D)
    (tl : List (token D)) (c' : istream D) (hk : k.kind ≠ assignment)
    (hin : Offers A s.ts (token.of_name A var name :: k :: tl) c') :
    ∃ ts1, ts1.full = true ∧ ts1.buffer = k ∧ Lex A ts1.cin tl c' ∧
      ∃ n0, ∀ n, n0 ≤ n → primary A n s =
        match s.vars.lookup name with
        | some v => .ok v ⟨ts1, s.vars⟩
        | none => .err (.undefined_symbol name) ⟨ts1, s.vars⟩ := by
  obtain ⟨ts1, _, ho1, hk1⟩ := of_ts_get (α := D) A hin
  obtain ⟨ts2, hf2, ho2, hk2⟩ := of_ts_get (α := D) (s := { s with ts := ts1 }) A ho1
  have hk2' : ∀ k1 : token D → State D → Res D D,
      Res.of_ts ⟨ts1, s.vars⟩ (get A ts1) k1 = k1 k ⟨ts2, s.vars⟩ := hk2
  refine ⟨{ ts2 with buffer := k, full := true }, rfl, rfl,
    (offers_iff_lex A hf2 tl c').1 ho2, 1, fun n hn => ?_⟩
  obtain ⟨m, rfl⟩ : ∃ m, n = m + 1 := ⟨n - 1, by omega⟩
  rw [primary_succ, hk1]
  simp only [token.of_name, var, number, if_true, if_false]
  rw [hk2', if_neg hk, of_ts_putback hf2]
  simp

/-- C7: for every name read as an identifier whose next token `k` is not `=`,
`primary()` (with enough fuel) returns the value stored for the name when
there is one and throws `undefined symbol: name` when there is none, so it
fails with that error exactly when the name is absent from `variables`.  In
both cases the peeked token `k` is back in the buffer and `variables` is
unchanged. -/
theorem primary_lookup (A : Arith D) (name : List Char) (s : State D) (k : token D)
    (tl : List (token D)) (c' : istream D) (hk : k.kind ≠ assignment)
    (hin : Offers A s.ts (token.of_name A var name :: k :: tl) c') :
    ∃ ts1, ts1.full = true ∧ ts1.buffer = k ∧ Lex A ts1.cin tl c' ∧
      ∃ n0, ∀ n, n0 ≤ n → primary A n s =
        match s.vars.lookup name with
        | some v => .ok v ⟨ts1, s.vars⟩
        | none => .err (.undefined_symbol name) ⟨ts1, s.vars⟩ :=
  primary_ref_run A name s k tl c' hk hin

/-- On the input `y;` with no variables, `primary()` throws
`undefined symbol: y` and the `;` is back in the buffer. -/
theorem primary_lookup_witness :
    ∃ ts1 : token_stream ℚ, ts1.full = true ∧ ts1.buffer = token.of_kind ratArith ';'
      ∧ Lex ratArith ts1.cin [] ⟨[], false, 'a', 0⟩ ∧
      ∃ n0, ∀ n, n0 ≤ n → primary ratArith n (initial ratArith "y;".toList 'a' 0) =
        match (initial ratArith "y;".toList 'a' 0).vars.lookup ['y'] with
        | some v => .ok v ⟨ts1, (initial ratArith "y;".toList 'a' 0).vars⟩
        | none => .err (.undefined_symbol ['y']) ⟨ts1, (initial ratArith "y;".toList 'a' 0).vars⟩ :=
  primary_lookup ratArith ['y'] (initial ratArith "y;".toList 'a' 0) (token.of_kind ratArith ';')
    [] ⟨[], false, 'a', 0⟩ (by decide) (by decide)

theorem lookup_store (name : List Char) (v : D) (m : List (List Char × D)) :
    (store name v m).lookup name = some v := by
  induction m with
  | nil => simp [store, List.lookup]
  | cons x m ih =>
    obtain ⟨k, w⟩ := x
    by_cases h : k = name
    · simp [store, h, List.lookup]
    · have h' : (name == k) = false := by simpa using fun h2 => h h2.symm
      simp [store, h, List.lookup, h', ih]

theorem lookup_store_other (name other : List Char) (h : other ≠ name) (v : D)
    (m : List (List Char × D)) : (store name v m).lookup other = m.lookup other := by
  induction m with
  | nil =>
    have h' : (other == name) = false := by simpa using h
    simp [store, List.lookup, h']
  | cons x m ih =>
    obtain ⟨k, w⟩ := x
    by_cases hk : k = name
    · subst hk
      have h' : (other == k) = false := by simpa using h
      simp [store, List.lookup, h']
    · simp only [store, hk, if_false, List.lookup, ih]

/-- C5: assignment is an expression that stores and returns its value.  For
every name and every right-hand side `e` whose value is `v`, `primary()` on
`name = e` (followed by a token `k` that cannot continue `e`) returns `v`
with enough fuel and leaves `variables[name] = v`, whatever was stored
before, the other names keeping their values; a later reference to the name
(in any state with these variables) then evaluates to `v`. -/
theorem primary_assignment (A : Arith D) (name : List Char) (e : Tree D .expression)
    (s : State D) (k : token D) (tl : List (token D)) (c' : istream D) (v : D)
    (m : List (List Char × D)) (hwf : e.wf) (hps : e.pstop k.kind)
    (hk : ¬ is_operator k.kind)
    (hin : Offers A s.ts
      (token.of_name A var name :: token.of_kind A assignment :: (e.toks A ++ k :: tl)) c')
    (hval : e.eval A s.vars = .ok v m) :
    ∃ s1, (∃ n0, ∀ n, n0 ≤ n → primary A n s = .ok v s1)
      ∧ s1.vars = store name v m ∧ s1.vars.lookup name = some v
      ∧ (∀ other, other ≠ name → s1.vars.lookup other = m.lookup other)
      ∧ Offers A s1.ts (k :: tl) c'
      ∧ ∀ (s2 : State D) (k2 : token D) (tl2 : List (token D)) (c2 : istream D),
          s2.vars = s1.vars → k2.kind ≠ assignment →
          Offers A s2.ts (token.of_name A var name :: k2 :: tl2) c2 →
          ∃ s3, s3.vars = s1.vars ∧ ∃ n0, ∀ n, n0 ≤ n → primary A n s2 = .ok v s3 := by
  have h := parser_agrees A (Tree.assign name e) s k tl c' hwf ⟨hps, hk⟩ hin
  simp only [Tree.eval, hval, Val.bind] at h
  obtain ⟨s1, hv, ho, hc⟩ := h
  refine ⟨s1, hc, hv, by rw [hv]; exact lookup_store name v m,
    fun other ho => by rw [hv]; exact lookup_store_other name other ho v m, ho, ?_⟩
  intro s2 k2 tl2 c2 hv2 hk2 hin2
  obtain ⟨ts3, _, _, _, n0, hn⟩ := primary_ref_run A name s2 k2 tl2 c2 hk2 hin2
  refine ⟨⟨ts3, s2.vars⟩, hv2, n0, fun n h0 => ?_⟩
  rw [hn n h0, hv2, hv, lookup_store]

/-- On `x = 5;` the assignment returns 5 and stores it, and the session on
`x = 5; x + 1;` prints 5 and then 6. -/
theorem primary_assignment_witness :
    (run 30 "x = 5; x + 1; q" = some [.prompt, .result 5, .prompt, .result 6, .prompt]) ∧
    ∃ s1 : State ℚ,
      (∃ n0, ∀ n, n0 ≤ n → primary ratArith n (initial ratArith "x = 5;".toList 'a' 0) = .ok 5 s1)
      ∧ s1.vars = store ['x'] 5 [] ∧ s1.vars.lookup ['x'] = some 5
      ∧ (∀ other, other ≠ ['x'] → s1.vars.lookup other = List.lookup other [])
      ∧ Offers ratArith s1.ts (token.of_kind ratArith ';' :: []) ⟨[], false, 'a', 0⟩
      ∧ ∀ (s2 : State ℚ) (k2 : token ℚ) (tl2 : List (token ℚ)) (c2 : istream ℚ),
          s2.vars = s1.vars → k2.kind ≠ assignment →
          Offers ratArith s2.ts (token.of_name ratArith var ['x'] :: k2 :: tl2) c2 →
          ∃ s3, s3.vars = s1.vars ∧ ∃ n0, ∀ n, n0 ≤ n → primary ratArith n s2 = .ok 5 s3 :=
  ⟨by decide!,
   primary_assignment ratArith ['x'] (.of_term (.of_primary (.num 5)))
    (initial ratArith "x = 5;".toList 'a' 0) (token.of_kind ratArith ';') []
    ⟨[], false, 'a', 0⟩ 5 [] (by simp [Tree.wf]) (by simp [Tree.pstop]) (by decide) (by decide)
    (by decide)⟩

/-! ## Parentheses -/

theorem primary_paren_run (A : Arith D) (e : Tree D .expression) (s : State D) (k : token D)
    (tl : List (token D)) (c' : istream D) (v : D) (m : List (List Char × D)) (hwf : e.wf)
    (hps : e.pstop k.kind) (hk : ¬ is_operator k.kind)
    (hin : Offers A s.ts (token.of_kind A '(' :: (e.toks A ++ k :: tl)) c')
    (hval : e.eval A s.vars = .ok v m) :
    ∃ s1, s1.vars = m ∧ s1.ts.full = false ∧ Lex A s1.ts.cin tl c' ∧
      ∃ n0, ∀ n, n0 ≤ n → primary A n s =
        if k.kind ≠ ')' then .err .rparen_expected s1 else .ok v s1 := by
  obtain ⟨ts1, _, ho1, hk1⟩ := of_ts_get (α := D) A hin
  have hF : ∀ n, primary A (n + 1) s = (expression A n { s with ts := ts1 }).bind
      (fun d s2 => Res.of_ts s2 (get A s2.ts) fun t2 s3 =>
        if t2.kind ≠ ')' then .err .rparen_expected s3 else .ok d s3) := by
    intro n
    rw [primary_succ, hk1]
    simp [token.of_kind]
  have h1 : Returns A (fun n => expression A n { s with ts := ts1 }) (e.eval A s.vars)
      k tl c' := expression_returns A e { s with ts := ts1 } k tl c' hwf hps hk ho1
  rw [hval] at h1
  obtain ⟨s2, hv, hfull, hbuf, hlex, hc⟩ := h1
  refine ⟨{ s2 with ts := { s2.ts with full := false } }, hv, rfl, hlex,
    Conv.step hF hc ⟨0, fun n _ => ?_⟩⟩
  simp [Res.of_ts, get, hfull, hbuf]

/-- C9: for every expression `e` whose value is `v`, `primary()` on `( e )`
returns `v` with enough fuel, the `)` consumed (the buffer is empty and the
stream stands after it); and on `( e` followed by a token `k` other than `)`
(one that ends `e`: no operator, and not `=` after a name) it throws
`')' expected`. -/
theorem primary_parenthesised (A : Arith D) (e : Tree D .expression) (s : State D)
    (k : token D) (tl : List (token D)) (c' : istream D) (v : D)
    (m : List (List Char × D)) (hwf : e.wf) (hps : e.pstop k.kind)
    (hk : ¬ is_operator k.kind)
    (hin : Offers A s.ts (token.of_kind A '(' :: (e.toks A ++ k :: tl)) c')
    (hval : e.eval A s.vars = .ok v m) :
    ∃ s1, s1.vars = m ∧ s1.ts.full = false ∧ Lex A s1.ts.cin tl c' ∧
      (k.kind = ')' → ∃ n0, ∀ n, n0 ≤ n → primary A n s = .ok v s1) ∧
      (k.kind ≠ ')' → ∃ n0, ∀ n, n0 ≤ n → primary A n s = .err .rparen_expected s1) := by
  obtain ⟨s1, hv, hf, hl, n0, hn⟩ := primary_paren_run A e s k tl c' v m hwf hps hk hin hval
  refine ⟨s1, hv, hf, hl, fun h => ⟨n0, fun n h0 => ?_⟩, fun h => ⟨n0, fun n h0 => ?_⟩⟩
  · rw [hn n h0, if_neg (by simpa using h)]
  · rw [hn n h0, if_pos h]

/-- On `(1 + 2)` followed by `;` the value is 3 and the `)` is consumed; on
`(1 + 2;` the error is `')' expected`. -/
theorem primary_parenthesised_witness :
    (∃ s1 : State ℚ, s1.vars = [] ∧ s1.ts.full = false
      ∧ Lex ratArith s1.ts.cin [token.of_kind ratArith ';'] ⟨[], false, 'a', 0⟩ ∧
      ((token.of_kind ratArith ')').kind = ')' → ∃ n0, ∀ n, n0 ≤ n →
        primary ratArith n (initial ratArith "(1 + 2);".toList 'a' 0) = .ok 3 s1) ∧
      ((token.of_kind ratArith ')').kind ≠ ')' → ∃ n0, ∀ n, n0 ≤ n →
        primary ratArith n (initial ratArith "(1 + 2);".toList 'a' 0)
          = .err .rparen_expected s1))
    ∧ (∃ s1 : State ℚ, s1.vars = [] ∧ s1.ts.full = false
      ∧ Lex ratArith s1.ts.cin [] ⟨[], false, 'a', 0⟩ ∧
      ((token.of_kind ratArith ';').kind = ')' → ∃ n0, ∀ n, n0 ≤ n →
        primary ratArith n (initial ratArith "(1 + 2;".toList 'a' 0) = .ok 3 s1) ∧
      ((token.of_kind ratArith ';').kind ≠ ')' → ∃ n0, ∀ n, n0 ≤ n →
        primary ratArith n (initial ratArith "(1 + 2;".toList 'a' 0)
          = .err .rparen_expected s1)) :=
  ⟨primary_parenthesised ratArith (.add (.of_term (.of_primary (.num 1))) (.of_primary (.num 2)))
      (initial ratArith "(1 + 2);".toList 'a' 0) (token.of_kind ratArith ')')
      [token.of_kind ratArith ';'] ⟨[], false, 'a', 0⟩ 3 []
      (by simp [Tree.wf, Tree.pstop]) (by simp [Tree.pstop]) (by decide) (by decide) (by decide),
   primary_parenthesised ratArith (.add (.of_term (.of_primary (.num 1))) (.of_primary (.num 2)))
      (initial ratArith "(1 + 2;".toList 'a' 0) (token.of_kind ratArith ';')
      [] ⟨[], false, 'a', 0⟩ 3 []
      (by simp [Tree.wf, Tree.pstop]) (by simp [Tree.pstop]) (by decide) (by decide) (by decide)⟩

/-! ## Division by zero -/

theorem term_returns (A : Arith D) (t : Tree D .term) (s : State D) (k : token D)
    (tl : List (token D)) (c' : istream D) (hwf : t.wf) (hps : t.pstop k.kind)
    (h1 : k.kind ≠ '*') (h2 : k.kind ≠ '/') (h3 : k.kind ≠ '%')
    (ho : Offers A s.ts (t.toks A ++ k :: tl) c') :
    Returns A (fun n => term A n s) (t.eval A s.vars) k tl c' :=
  term_exit A (parser_agrees A t s k tl c' hwf hps ho) h1 h2 h3

/-- C6: `term()` throws `divide by zero` exactly when the divisor after `/`
or `%` is zero.  For every left operand `t` of value `left` and every divisor
primary `p` of value `d`, followed by a token `k` that ends the term:
on `t / p` and `t % p` the run throws `divide by zero` if `d == 0` and
otherwise returns `left / d`, respectively `fmod(left, d)`; on `t * p` it
returns `left * d` whatever `d` is. -/
theorem term_divide_by_zero (A : Arith D) (t : Tree D .term) (p : Tree D .primary)
    (s : State D) (k : token D) (tl : List (token D)) (c' : istream D) (left d : D)
    (m1 m2 : List (List Char × D)) (hwt : t.wf) (hwp : p.wf) (hpp : p.pstop k.kind)
    (hk1 : k.kind ≠ '*') (hk2 : k.kind ≠ '/') (hk3 : k.kind ≠ '%')
    (hl : t.eval A s.vars = .ok left m1) (hd : p.eval A m1 = .ok d m2) :
    (t.pstop '/' → Offers A s.ts (t.toks A ++ token.of_kind A '/' :: (p.toks A ++ k :: tl)) c' →
      ∃ s1, s1.vars = m2 ∧ ∃ n0, ∀ n, n0 ≤ n → term A n s =
        if A.isZero d then .err .divide_by_zero s1 else .ok (A.div left d) s1)
    ∧ (t.pstop '%' →
      Offers A s.ts (t.toks A ++ token.of_kind A '%' :: (p.toks A ++ k :: tl)) c' →
      ∃ s1, s1.vars = m2 ∧ ∃ n0, ∀ n, n0 ≤ n → term A n s =
        if A.isZero d then .err .divide_by_zero s1 else .ok (A.fmod left d) s1)
    ∧ (t.pstop '*' →
      Offers A s.ts (t.toks A ++ token.of_kind A '*' :: (p.toks A ++ k :: tl)) c' →
      ∃ s1, s1.vars = m2 ∧ ∃ n0, ∀ n, n0 ≤ n → term A n s = .ok (A.mul left d) s1) := by
  refine ⟨fun hpt ho => ?_, fun hpt ho => ?_, fun hpt ho => ?_⟩
  · have h := term_returns A (Tree.div t p) s k tl c' ⟨hwt, hpt, hwp⟩ hpp hk1 hk2 hk3
      (by simpa [Tree.toks] using ho)
    simp only [Tree.eval, hl, hd, Val.bind] at h
    by_cases hz : A.isZero d = true
    · simp only [hz, if_true] at h ⊢
      obtain ⟨s1, rem, hv, _, _, hc⟩ := h
      exact ⟨s1, hv, hc⟩
    · simp only [hz, if_false] at h ⊢
      obtain ⟨s1, hv, _, _, _, hc⟩ := h
      exact ⟨s1, hv, hc⟩
  · have h := term_returns A (Tree.mod t p) s k tl c' ⟨hwt, hpt, hwp⟩ hpp hk1 hk2 hk3
      (by simpa [Tree.toks] using ho)
    simp only [Tree.eval, hl, hd, Val.bind] at h
    by_cases hz : A.isZero d = true
    · simp only [hz, if_true] at h ⊢
      obtain ⟨s1, rem, hv, _, _, hc⟩ := h
      exact ⟨s1, hv, hc⟩
    · simp only [hz, if_false] at h ⊢
      obtain ⟨s1, hv, _, _, _, hc⟩ := h
      exact ⟨s1, hv, hc⟩
  · have h := term_returns A (Tree.mul t p) s k tl c' ⟨hwt, hpt, hwp⟩ hpp hk1 hk2 hk3
      (by simpa [Tree.toks] using ho)
    simp only [Tree.eval, hl, hd, Val.bind] at h
    obtain ⟨s1, hv, _, _, _, hc⟩ := h
    exact ⟨s1, hv, hc⟩

/-! ## The session loop -/

theorem Res.bind_of_ts {α β γ : Type} (s : State D) (r : LRes D α)
    (k : α → State D → Res D β) (K : β → State D → Res D γ) :
    (Res.of_ts s r k).bind K = Res.of_ts s r fun a s1 => (k a s1).bind K := by
  cases r <;> rfl

theorem skip_prints_succ (A : Arith D) (n : Nat) (t : token D) (s : State D) :
    skip_prints A (n + 1) t s =
      if t.kind = print then Res.of_ts s (get A s.ts) fun t1 s1 => skip_prints A n t1 s1
      else .ok t s := by
  rw [skip_prints]

theorem try_block_head (A : Arith D) {β : Type} (semis : List (token D))
    (hs : ∀ x ∈ semis, x.kind = print) :
    ∀ (s : State D) (t : token D) (rest : List (token D)) (c' : istream D),
      t.kind ≠ print → Offers A s.ts (semis ++ t :: rest) c' →
      ∃ ts1, ts1.full = false ∧ Offers A ts1 rest c' ∧
        ∀ (K : token D → State D → Res D β) (n : Nat), semis.length < n →
          Res.of_ts s (get A s.ts) (fun t0 s1 => (skip_prints A n t0 s1).bind K)
            = K t ⟨ts1, s.vars⟩ := by
  induction semis with
  | nil =>
    intro s t rest c' ht ho
    obtain ⟨ts1, hf, ho1, hk⟩ := of_ts_get (α := β) A (by simpa using ho)
    refine ⟨ts1, hf, ho1, fun K n hn => ?_⟩
    obtain ⟨m, rfl⟩ : ∃ m, n = m + 1 := ⟨n - 1, by simp at hn; omega⟩
    rw [hk, skip_prints_succ, if_neg ht]
    rfl
  | cons x semis ih =>
    intro s t rest c' ht ho
    obtain ⟨ts1, _, ho1, hk⟩ := of_ts_get (α := β) A (by simpa using ho)
    obtain ⟨ts2, hf2, ho2, hK⟩ := ih (fun y hy => hs y (List.mem_cons_of_mem _ hy))
      ⟨ts1, s.vars⟩ t rest c' ht ho1
    refine ⟨ts2, hf2, ho2, fun K n hn => ?_⟩
    obtain ⟨m, rfl⟩ : ∃ m, n = m + 1 := ⟨n - 1, by simp at hn; omega⟩
    rw [hk, skip_prints_succ, if_pos (hs x (List.mem_cons_self _ _)), Res.bind_of_ts]
    exact hK K m (by simp at hn; omega)

theorem toks_head (A : Arith D) {l : Level} (tree : Tree D l) :
    ∃ t0 r0, tree.toks A = t0 :: r0 ∧ t0.kind ≠ print ∧ t0.kind ≠ quit := by
  induction tree with
  | num v => exact ⟨_, _, rfl, by simp [token.of_value, number, print, quit]⟩
  | paren e _ => exact ⟨_, _, rfl, by simp [token.of_kind, print, quit]⟩
  | neg p _ => exact ⟨_, _, rfl, by simp [token.of_kind, print, quit]⟩
  | ref name => exact ⟨_, _, rfl, by simp [token.of_name, var, print, quit]⟩
  | assign name e _ => exact ⟨_, _, rfl, by simp [token.of_name, var, print, quit]⟩
  | of_primary p ih => exact ih
  | of_term t ih => exact ih
  | mul t p iht _ | div t p iht _ | mod t p iht _ | add t p iht _ | sub t p iht _ =>
    obtain ⟨t0, r0, h, hk⟩ := iht
    exact ⟨t0, _, by rw [Tree.toks, h]; rfl, hk⟩

theorem calculate_succ (A : Arith D) (n : Nat) (s : State D) (hf : s.ts.cin.fail = false) :
    calculate A (n + 1) s =
      match try_block A n s with
      | .ok none s1 => some ([.prompt], s1)
      | .ok (some v) s1 =>
        (calculate A n s1).map fun r => (.prompt :: .result v :: r.1, r.2)
      | .err e s1 =>
        (calculate A n (clean_up_mess s1)).map fun r => (.prompt :: .error e :: r.1, r.2)
      | .timeout => none := by
  rw [calculate]
  simp [hf]

/-- The `try` block on a statement: leading print commands are skipped and
the expression is evaluated. -/
theorem try_block_statement (A : Arith D) (semis : List (token D))
    (hs : ∀ x ∈ semis, x.kind = print) (e : Tree D .expression) (s : State D) (k : token D)
    (tl : List (token D)) (c' : istream D) (hwf : e.wf) (hps : e.pstop k.kind)
    (hk : ¬ is_operator k.kind) (ho : Offers A s.ts (semis ++ (e.toks A ++ k :: tl)) c') :
    match e.eval A s.vars with
    | .ok v m => ∃ s1, s1.vars = m ∧ s1.ts.full = true ∧ s1.ts.buffer = k
        ∧ Lex A s1.ts.cin tl c' ∧ Conv (fun n => try_block A n s) (.ok (some v) s1)
    | .err er m => ∃ s1 rem, s1.vars = m ∧ Offers A s1.ts (rem ++ k :: tl) c'
        ∧ (∀ y ∈ rem, y.kind ≠ print) ∧ Conv (fun n => try_block A n s) (.err er s1) := by
  obtain ⟨t0, r0, htoks, hp, hq⟩ := toks_head A e
  rw [htoks, List.cons_append] at ho
  obtain ⟨ts1, hf1, ho1, hK⟩ := try_block_head (β := Option D) A semis hs s t0 _ c' hp ho
  have ho2 : Offers A ({ ts1 with buffer := t0, full := true }) (e.toks A ++ k :: tl) c' := by
    rw [htoks, List.cons_append]
    exact offers_putback A hf1 ho1 t0
  have hr := expression_returns A e ⟨{ ts1 with buffer := t0, full := true }, s.vars⟩
    k tl c' hwf hps hk ho2
  have hT : ∀ n, semis.length < n → try_block A n s =
      (expression A n ⟨{ ts1 with buffer := t0, full := true }, s.vars⟩).bind
        fun v s4 => .ok (some v) s4 := by
    intro n hn
    unfold try_block
    rw [hK _ n hn, if_neg hq, of_ts_putback hf1]
  simp only at hr
  cases hx : e.eval A s.vars with
  | ok v m =>
    rw [hx] at hr
    obtain ⟨s1, hv, hfull, hbuf, hlex, n0, hn⟩ := hr
    refine ⟨s1, hv, hfull, hbuf, hlex, max n0 (semis.length + 1), fun n h0 => ?_⟩
    have h1 := hn n (by omega)
    simp only at h1
    show try_block A n s = _
    rw [hT n (by omega), h1]
    rfl
  | err er m =>
    rw [hx] at hr
    obtain ⟨s1, rem, hv, ho3, hrem, n0, hn⟩ := hr
    refine ⟨s1, rem, hv, ho3, hrem, max n0 (semis.length + 1), fun n h0 => ?_⟩
    have h1 := hn n (by omega)
    simp only at h1
    show try_block A n s = _
    rw [hT n (by omega), h1]
    rfl

/-! ## Recovery: `ignore` skips the rest of a statement -/

theorem ignore_loop_append (c : Char) (pre r : List Char) (h : c ∉ pre) :
    ignore_loop c (pre ++ r) = ignore_loop c r := by
  induction pre with
  | nil => rfl
  | cons x pre ih =>
    have hx : x ≠ c := fun hx => h (by simp [hx])
    have hp : c ∉ pre := fun hp => h (List.mem_cons_of_mem _ hp)
    simp only [List.cons_append, ignore_loop, hx, if_false, ite_self]
    exact ih hp

theorem Consumed.refl (l : List Char) : Consumed l l := ⟨[], rfl, by simp⟩

theorem Consumed.cons {x : Char} {l rest : List Char} (hx : x ≠ print) (h : Consumed l rest) :
    Consumed (x :: l) rest := by
  obtain ⟨pre, h1, h2⟩ := h
  refine ⟨x :: pre, by rw [h1]; rfl, ?_⟩
  intro hm
  rcases List.mem_cons.1 hm with h3 | h3
  · exact hx h3.symm
  · exact h2 h3

theorem Consumed.trans {a b c : List Char} (h1 : Consumed a b) (h2 : Consumed b c) :
    Consumed a c := by
  obtain ⟨p1, e1, n1⟩ := h1
  obtain ⟨p2, e2, n2⟩ := h2
  refine ⟨p1 ++ p2, by rw [e1, e2, List.append_assoc], ?_⟩
  intro hm
  rcases List.mem_append.1 hm with h | h
  · exact n1 h
  · exact n2 h

theorem Consumed.digits (l : List Char) : Consumed l (l.dropWhile isdigit) := by
  refine ⟨l.takeWhile isdigit, (List.takeWhile_append_dropWhile _ _).symm, ?_⟩
  intro hm
  have := List.mem_takeWhile_imp hm
  simp [isdigit, print] at this

theorem scan_exponent_consumed (inp : List Char) (f : ℚ → ℚ) (rest : List Char)
    (h : scan_exponent inp = some (f, rest)) : Consumed inp rest := by
  unfold scan_exponent at h
  simp only at h
  split at h <;> split_ifs at h <;>
    simp only [Option.some.injEq, Prod.mk.injEq] at h <;> rw [← h.2] <;>
    first
    | exact Consumed.cons (by decide) (Consumed.digits _)
    | exact Consumed.digits _

theorem scan_decimal_consumed (inp : List Char) (v : ℚ) (rest : List Char)
    (h : scan_decimal inp = some (v, rest)) : Consumed inp rest := by
  unfold scan_decimal at h
  simp only at h
  split_ifs at h
  have h12 : Consumed inp
      (match inp.dropWhile isdigit with
       | '.' :: r => r.dropWhile isdigit
       | _ => inp.dropWhile isdigit) := by
    split
    · next r hr =>
      refine (Consumed.digits inp).trans ?_
      rw [hr]
      exact Consumed.cons (by decide) (Consumed.digits r)
    · exact Consumed.digits inp
  revert h h12
  generalize (match inp.dropWhile isdigit with
       | '.' :: r => r.dropWhile isdigit
       | _ => inp.dropWhile isdigit) = r2
  intro h h12
  split at h
  · next r =>
    simp only [Option.map_eq_some'] at h
    obtain ⟨⟨g, rest1⟩, hg, hr⟩ := h
    simp only [Prod.mk.injEq] at hr
    rw [← hr.2]
    exact h12.trans (Consumed.cons (by decide) (scan_exponent_consumed _ _ _ hg))
  · next r =>
    simp only [Option.map_eq_some'] at h
    obtain ⟨⟨g, rest1⟩, hg, hr⟩ := h
    simp only [Prod.mk.injEq] at hr
    rw [← hr.2]
    exact h12.trans (Consumed.cons (by decide) (scan_exponent_consumed _ _ _ hg))
  · simp only [Option.some.injEq, Prod.mk.injEq] at h
    rw [← h.2]
    exact h12

theorem ratArith_scan_keeps_print : scan_keeps_print ratArith :=
  fun inp v rest h => scan_decimal_consumed inp v rest h

/-- On `1 / 0` the run of `term()` throws `divide by zero`, on `7 % 2` it
returns 1 and on `2 * 0` it returns 0. -/
theorem term_divide_by_zero_witness :
    (∃ s1 : State ℚ, s1.vars = [] ∧ ∃ n0, ∀ n, n0 ≤ n →
      term ratArith n (initial ratArith "1 / 0;".toList 'a' 0) =
        if ratArith.isZero 0 then .err .divide_by_zero s1 else .ok (ratArith.div 1 0) s1)
    ∧ (∃ s1 : State ℚ, s1.vars = [] ∧ ∃ n0, ∀ n, n0 ≤ n →
      term ratArith n (initial ratArith "7 % 2;".toList 'a' 0) =
        if ratArith.isZero 2 then .err .divide_by_zero s1 else .ok (ratArith.fmod 7 2) s1)
    ∧ (∃ s1 : State ℚ, s1.vars = [] ∧ ∃ n0, ∀ n, n0 ≤ n →
      term ratArith n (initial ratArith "2 * 0;".toList 'a' 0) = .ok (ratArith.mul 2 0) s1) :=
  ⟨(term_divide_by_zero ratArith (.of_primary (.num 1)) (.num 0)
      (initial ratArith "1 / 0;".toList 'a' 0) (token.of_kind ratArith ';') []
      ⟨[], false, 'a', 0⟩ 1 0 [] [] (by simp [Tree.wf]) (by simp [Tree.wf])
      (by simp [Tree.pstop]) (by decide) (by decide) (by decide) (by decide) (by decide)).1
      (by simp [Tree.pstop]) (by decide),
   (term_divide_by_zero ratArith (.of_primary (.num 7)) (.num 2)
      (initial ratArith "7 % 2;".toList 'a' 0) (token.of_kind ratArith ';') []
      ⟨[], false, 'a', 0⟩ 7 2 [] [] (by simp [Tree.wf]) (by simp [Tree.wf])
      (by simp [Tree.pstop]) (by decide) (by decide) (by decide) (by decide) (by decide)).2.1
      (by simp [Tree.pstop]) (by decide),
   (term_divide_by_zero ratArith (.of_primary (.num 2)) (.num 0)
      (initial ratArith "2 * 0;".toList 'a' 0) (token.of_kind ratArith ';') []
      ⟨[], false, 'a', 0⟩ 2 0 [] [] (by simp [Tree.wf]) (by simp [Tree.wf])
      (by simp [Tree.pstop]) (by decide) (by decide) (by decide) (by decide) (by decide)).2.2
      (by simp [Tree.pstop]) (by decide)⟩

/-! ## End of input -/

theorem lex_constant (A : Arith D) (name : List Char) (val : D) (hc : (name, val) ∈ symbols A)
    (c : istream D) (x : Char) (y : List Char) (hx : (isalpha x || isdigit x) = false)
    (hf : c.fail = false) (hin : c.input = name ++ x :: y) :
    lex A c = .ok (token.of_value val) { c with input := x :: y } := by
  simp only [symbols, List.mem_cons, Prod.mk.injEq, List.mem_singleton, List.not_mem_nil,
    or_false] at hc
  rcases hc with ⟨rfl, rfl⟩ | ⟨rfl, rfl⟩
  · simp [lex, istream.read_char, hf, hin, List.dropWhile, isspace, get_switch, isdigit,
      isalpha, name_loop, symbols, List.lookup]
    simp [isalpha, isdigit] at hx
    simp [hx]
  · simp [lex, istream.read_char, hf, hin, List.dropWhile, isspace, get_switch, isdigit,
      isalpha, name_loop, symbols, List.lookup]
    simp [isalpha, isdigit] at hx
    simp [hx]

/-- C2 fails on the code: after the error `')' expected` on `(1 + 2;` the
recovery discards the next statement `3;` as well, and only `4;` is
evaluated.  `primary()` has consumed the `;` when it throws, so
`clean_up_mess()` searches the input for the following one. -/
theorem missing_rparen_discards_next_statement :
    run 30 "(1 + 2; 3; 4; q"
      = some [.prompt, .error .rparen_expected, .prompt, .result 4, .prompt] := by
  decide!

/-! ## The lexer: pushback, punctuation, names, `ignore` -/

/-- C11: `putback` followed by `get` is a round trip.  For every token `t`
and every stream state with an empty buffer, `putback(t)` succeeds and the
next `get()` returns exactly `t` (kind, value and name), leaves the buffer
empty again and does not touch `std::cin`. -/
theorem putback_get_round_trip (A : Arith D) (t : token D) (ts : token_stream D)
    (hfull : ts.full = false) :
    ∃ ts1 ts2, putback t ts = .ok () ts1 ∧ get A ts1 = .ok t ts2
      ∧ ts2.full = false ∧ ts2.cin = ts.cin := by
  refine ⟨{ ts with buffer := t, full := true }, { ts with buffer := t, full := false },
    ?_, ?_, rfl, rfl⟩
  · simp [putback, hfull]
  · simp [get]

/-- A name token put back on the initial stream is returned by `get()` with
its name, and the input `1;` is still unread. -/
theorem putback_get_round_trip_witness :
    ∃ ts1 ts2 : token_stream ℚ,
      putback (token.of_name ratArith var ['x']) (initial ratArith "1;".toList 'a' 0).ts
        = .ok () ts1
      ∧ get ratArith ts1 = .ok (token.of_name ratArith var ['x']) ts2
      ∧ ts2.full = false ∧ ts2.cin = (initial ratArith "1;".toList 'a' 0).ts.cin :=
  putback_get_round_trip ratArith (token.of_name ratArith var ['x'])
    (initial ratArith "1;".toList 'a' 0).ts rfl

theorem get_unbuffered (A : Arith D) (ts : token_stream D) (ch : Char) (rest : List Char)
    (hfull : ts.full = false) (hfail : ts.cin.fail = false)
    (hnext : ts.cin.input.dropWhile isspace = ch :: rest) :
    get A ts =
      match get_switch A ch { ts.cin with input := rest } with
      | .ok t c => .ok t { ts with cin := c }
      | .err e c => .err e { ts with cin := c } := by
  simp [get, hfull, lex, istream.read_char, hfail, hnext]

theorem get_switch_recognised (A : Arith D) (ch : Char) (c : istream D) :
    (recognised ch → ∃ t c1, get_switch A ch c = .ok t c1)
    ∧ (¬ recognised ch → get_switch A ch c = .err .bad_token c) := by
  constructor
  · intro h
    unfold get_switch
    split_ifs with h1 h2 h3 h4 h5 h6
    · exact ⟨_, _, rfl⟩
    · exact ⟨_, _, rfl⟩
    · cases A.scan (ch :: c.input) with
      | none => exact ⟨_, _, rfl⟩
      | some x => exact ⟨_, _, rfl⟩
    · exact ⟨_, _, rfl⟩
    · simp only
      split <;> exact ⟨_, _, rfl⟩
    · simp only
      split <;> exact ⟨_, _, rfl⟩
    · exfalso
      simp only [recognised] at h
      rcases h with h | h | h | h
      · exact h1 h
      · exact h2 h
      · exact h4 h
      · exact h5 h
  · intro h
    simp only [recognised, not_or] at h
    obtain ⟨h1, h2, h3, h4⟩ := h
    simp [get_switch, h1, h2, h3, h4]

theorem get_switch_punct (A : Arith D) (ch : Char) (c : istream D) (h : is_punct ch) :
    get_switch A ch c = .ok (token.of_kind A ch) c := by
  unfold is_punct at h
  rcases h with rfl | rfl | rfl | rfl | rfl | rfl | rfl | rfl | rfl | rfl <;>
    simp [get_switch, isdigit, assignment]

/-- C17: with an empty buffer and `ch` the next character that is not white
space, `get()` throws `Bad token` if and only if `ch` is none of
`( ) ; q + - * / % =`, no digit, not `.` and no letter, and it throws no other
error; for each of the punctuation characters it consumes exactly that one
character and returns the token whose kind is the character. -/
theorem get_bad_token (A : Arith D) (ts : token_stream D) (ch : Char) (rest : List Char)
    (hfull : ts.full = false) (hfail : ts.cin.fail = false)
    (hnext : ts.cin.input.dropWhile isspace = ch :: rest) :
    ((∃ ts1, get A ts = .err .bad_token ts1) ↔ ¬ recognised ch)
    ∧ (∀ e ts1, get A ts = .err e ts1 → e = .bad_token)
    ∧ (is_punct ch →
        get A ts = .ok (token.of_kind A ch) { ts with cin := { ts.cin with input := rest } }) := by
  have hg := get_unbuffered A ts ch rest hfull hfail hnext
  refine ⟨⟨fun h hr => ?_, fun h => ?_⟩, fun e ts1 h => ?_, fun h => ?_⟩
  · obtain ⟨ts1, h1⟩ := h
    obtain ⟨t, c1, h2⟩ := (get_switch_recognised A ch { ts.cin with input := rest }).1 hr
    rw [hg, h2] at h1
    cases h1
  · rw [hg, (get_switch_recognised A ch { ts.cin with input := rest }).2 h]
    exact ⟨_, rfl⟩
  · rcases get_result A ts with ⟨t, ts2, h2, _⟩ | ⟨ts2, h2, _⟩
    · rw [h2] at h
      cases h
    · rw [h2] at h
      cases h
      rfl
  · rw [hg, get_switch_punct A ch _ h]

/-- On the input ` @1` the next character `@` is not recognised and `get()`
throws `Bad token`; on ` =1` it returns the token of kind `=` and leaves `1`. -/
theorem get_bad_token_witness :
    (((∃ ts1, get ratArith (initial ratArith " @1".toList 'a' 0).ts = .err .bad_token ts1)
        ↔ ¬ recognised '@')
      ∧ (∀ e ts1, get ratArith (initial ratArith " @1".toList 'a' 0).ts = .err e ts1
          → e = .bad_token)
      ∧ (is_punct '@' → get ratArith (initial ratArith " @1".toList 'a' 0).ts
          = .ok (token.of_kind ratArith '@')
            { (initial ratArith " @1".toList 'a' 0).ts with
              cin := { (initial ratArith " @1".toList 'a' 0).ts.cin with input := ['1'] } }))
    ∧ get ratArith (initial ratArith " =1".toList 'a' 0).ts
        = .ok (token.of_kind ratArith '=')
          ⟨false, token.of_kind ratArith '\x00', ⟨['1'], false, 'a', 0⟩⟩ :=
  ⟨get_bad_token ratArith (initial ratArith " @1".toList 'a' 0).ts '@' ['1'] rfl rfl
      (by decide),
   (get_bad_token ratArith (initial ratArith " =1".toList 'a' 0).ts '=' ['1'] rfl rfl
      (by decide)).2.2 (by decide)⟩

theorem isalpha_not_isdigit (c : Char) (h : isalpha c = true) : isdigit c = false := by
  simp only [isalpha, isdigit, Char.isAlpha, Char.isUpper, Char.isLower, Char.isDigit,
    Bool.or_eq_true, Bool.and_eq_true, decide_eq_true_eq, Bool.and_eq_false_imp,
    decide_eq_false_iff_not] at *
  simp only [ge_iff_le, UInt32.le_def, BitVec.le_def] at *
  intro h1
  have e1 : (UInt32.toBitVec 65).toNat = 65 := rfl
  have e2 : (UInt32.toBitVec 90).toNat = 90 := rfl
  have e3 : (UInt32.toBitVec 97).toNat = 97 := rfl
  have e4 : (UInt32.toBitVec 122).toNat = 122 := rfl
  have e5 : (UInt32.toBitVec 48).toNat = 48 := rfl
  have e6 : (UInt32.toBitVec 57).toNat = 57 := rfl
  rw [e1, e2, e3, e4] at h
  rw [e5] at h1
  rw [e6]
  omega

theorem name_loop_eq (inp : List Char) :
    ∀ s : List Char, name_loop s inp
      = (s ++ inp.takeWhile isalnum, inp.dropWhile isalnum, (inp.dropWhile isalnum).isEmpty) := by
  induction inp with
  | nil => intro s; simp [name_loop]
  | cons c cs ih =>
    intro s
    rw [name_loop]
    by_cases hc : (isalpha c || isdigit c) = true
    · have hc' : isalnum c = true := hc
      rw [if_pos hc, ih]
      simp [List.takeWhile, List.dropWhile, hc']
    · have hc' : isalnum c = false := by simpa [isalnum] using hc
      rw [if_neg hc]
      simp [List.takeWhile, List.dropWhile, hc']

theorem get_switch_alpha (A : Arith D) (ch : Char) (c : istream D) (halpha : isalpha ch = true)
    (hq : ch ≠ 'q') (hfail : c.fail = false) :
    get_switch A ch c =
      .ok (match (symbols A).lookup (ch :: c.input.takeWhile isalnum) with
           | some v => token.of_value v
           | none => token.of_name A var (ch :: c.input.takeWhile isalnum))
        { c with input := c.input.dropWhile isalnum,
                 fail := (c.input.dropWhile isalnum).isEmpty } := by
  have h1 : ¬ (ch = '(' ∨ ch = ')' ∨ ch = ';' ∨ ch = 'q' ∨ ch = '+' ∨ ch = '-' ∨ ch = '*'
      ∨ ch = '/' ∨ ch = '%') := by
    rintro (rfl | rfl | rfl | rfl | rfl | rfl | rfl | rfl | rfl) <;>
      first
      | exact hq rfl
      | (revert halpha; decide)
  have h2 : ¬ (ch = '.' ∨ isdigit ch = true) := by
    rintro (rfl | h)
    · revert halpha; decide
    · rw [isalpha_not_isdigit ch halpha] at h
      cases h
  have h3 : ¬ ch = '=' := by
    rintro rfl
    revert halpha; decide
  unfold get_switch
  rw [if_neg h1, if_neg h2, if_neg h3, if_pos halpha]
  simp only [hfail, Bool.false_eq_true, if_false, name_loop_eq, List.singleton_append]
  split <;> rfl

theorem lex_name_not_constant (A : Arith D) (c c1 : istream D) (t : token D)
    (h : lex A c = .ok t c1) (hk : t.kind = var) : (symbols A).lookup t.name = none := by
  have key : ∀ (ch : Char) (c0 : istream D), get_switch A ch c0 = .ok t c1 →
      (symbols A).lookup t.name = none := by
    intro ch c0 h0
    unfold get_switch at h0
    split_ifs at h0 with h1 h2 h3 h4 h5 h6
    · simp only [IRes.ok.injEq] at h0
      rw [← h0.1] at hk
      simp only [token.of_kind, var] at hk
      exfalso
      rcases h1 with h | h | h | h | h | h | h | h | h <;> rw [h] at hk <;> revert hk <;> decide
    · simp only [IRes.ok.injEq] at h0
      rw [← h0.1] at hk
      simp [token.of_value, number, var] at hk
    · exfalso
      cases hs : A.scan (ch :: c0.input) with
      | none =>
        simp only [hs, IRes.ok.injEq] at h0
        rw [← h0.1] at hk
        simp [token.of_value, number, var] at hk
      | some x =>
        simp only [hs, IRes.ok.injEq] at h0
        rw [← h0.1] at hk
        simp [token.of_value, number, var] at hk
    · simp only [IRes.ok.injEq] at h0
      rw [← h0.1] at hk
      simp [token.of_kind, assignment, var] at hk
    · simp only at h0
      split at h0
      · simp only [IRes.ok.injEq] at h0
        rw [← h0.1] at hk
        simp [token.of_value, number, var] at hk
      · next hl =>
        simp only [IRes.ok.injEq] at h0
        rw [← h0.1]
        exact hl
    · simp only at h0
      split at h0
      · simp only [IRes.ok.injEq] at h0
        rw [← h0.1] at hk
        simp [token.of_value, number, var] at hk
      · next hl =>
        simp only [IRes.ok.injEq] at h0
        rw [← h0.1]
        exact hl
  unfold lex at h
  split at h <;> exact key _ _ h

/-- C12: when the next character `ch` that is not white space is a letter
other than `q`, `get()` with an empty buffer consumes exactly `ch` and the
longest run of letters and digits after it, so that the first character that
is no letter or digit is the next unread one (when the run reaches the end of
the input, `std::cin` enters the fail state).  It returns the number token of
`symbols[name]` when the name is a built-in constant and the name token
otherwise.  No name token returned by the lexer carries a constant's name. -/
theorem get_name (A : Arith D) (ts : token_stream D) (ch : Char) (rest : List Char)
    (hfull : ts.full = false) (hfail : ts.cin.fail = false)
    (hnext : ts.cin.input.dropWhile isspace = ch :: rest)
    (halpha : isalpha ch = true) (hq : ch ≠ 'q') :
    get A ts =
      .ok (match (symbols A).lookup (ch :: rest.takeWhile isalnum) with
           | some v => token.of_value v
           | none => token.of_name A var (ch :: rest.takeWhile isalnum))
        { ts with cin := { ts.cin with input := rest.dropWhile isalnum,
                                       fail := (rest.dropWhile isalnum).isEmpty } }
    ∧ (∀ x, (rest.dropWhile isalnum).head? = some x → isalnum x = false)
    ∧ (∀ (ts0 ts1 : token_stream D) (t : token D), ts0.full = false →
        get A ts0 = .ok t ts1 → t.kind = var → (symbols A).lookup t.name = none) := by
  refine ⟨?_, ?_, ?_⟩
  · rw [get_unbuffered A ts ch rest hfull hfail hnext,
      get_switch_alpha A ch { ts.cin with input := rest } halpha hq hfail]
  · intro x hx
    cases hd : rest.dropWhile isalnum with
    | nil => simp [hd] at hx
    | cons y ys =>
      simp only [hd, List.head?_cons, Option.some.injEq] at hx
      subst hx
      have := List.head_dropWhile_not isalnum rest (by rw [hd]; simp)
      simpa [hd] using this
  · intro ts0 ts1 t hf h hk
    simp only [get, hf, Bool.false_eq_true, if_false] at h
    cases hl : lex A ts0.cin with
    | ok t1 c1 =>
      simp only [hl, LRes.ok.injEq] at h
      rw [← h.1] at hk ⊢
      exact lex_name_not_constant A _ _ _ hl hk
    | err e c1 => simp [hl] at h

/-- On ` x1+2` the name `x1` is read and `+2` is left; on `pi;` the constant
is returned as a number token. -/
theorem get_name_witness :
    get ratArith (initial ratArith " x1+2".toList 'a' 0).ts
      = .ok (token.of_name ratArith var ['x', '1'])
          ⟨false, token.of_kind ratArith '\x00', ⟨['+', '2'], false, 'a', 0⟩⟩
    ∧ get ratArith (initial ratArith "pi;".toList 'a' 0).ts
      = .ok (token.of_value ratArith.pi)
          ⟨false, token.of_kind ratArith '\x00', ⟨[';'], false, 'a', 0⟩⟩ :=
  ⟨(get_name ratArith (initial ratArith " x1+2".toList 'a' 0).ts 'x' ['1', '+', '2'] rfl rfl
      (by decide) (by decide) (by decide)).1,
   (get_name ratArith (initial ratArith "pi;".toList 'a' 0).ts 'p' ['i', ';'] rfl rfl
      (by decide) (by decide) (by decide)).1⟩

theorem ignore_loop_found (c : Char) (hc : isspace c = false) (pre rest : List Char)
    (h : c ∉ pre) : ignore_loop c (pre ++ c :: rest) = (rest, false) := by
  rw [ignore_loop_append c pre _ h]
  simp [ignore_loop, hc]

theorem ignore_loop_not_found (c : Char) (inp : List Char) (h : c ∉ inp) :
    ignore_loop c inp = ([], true) := by
  induction inp with
  | nil => rfl
  | cons x xs ih =>
    have hx : x ≠ c := fun hx => h (by simp [hx])
    have hp : c ∉ xs := fun hp => h (List.mem_cons_of_mem _ hp)
    simp only [ignore_loop, hx, if_false, ite_self]
    exact ih hp

theorem ignore_loop_space (c : Char) (hc : isspace c = true) (inp : List Char) :
    ignore_loop c inp = ([], true) := by
  induction inp with
  | nil => rfl
  | cons x xs ih =>
    by_cases hx : isspace x = true
    · simp only [ignore_loop, hx, if_true]
      exact ih
    · have hne : x ≠ c := fun h => hx (by rw [h]; exact hc)
      simp only [ignore_loop, hx, hne, if_false, Bool.false_eq_true]
      exact ih

/-- C13, as the code has it: `ignore(c)` always leaves the buffer empty (and,
being a function that returns a stream state, throws nothing).  If the buffer
held a token of kind `c`, or if `std::cin` is already in the fail state,
`std::cin` is not touched.  Otherwise, for a character `c` that is no white
space, it consumes the input up to and including the first `c`, and if there
is no `c` it consumes all the input and `std::cin` enters the fail state; and
for a white-space character `c` it consumes all the input and `std::cin`
enters the fail state, whether `c` occurs or not. -/
theorem ignore_discards (c : Char) (ts : token_stream D) :
    (ignore c ts).full = false
    ∧ (ts.full = true → ts.buffer.kind = c → (ignore c ts).cin = ts.cin)
    ∧ (ts.cin.fail = true → (ignore c ts).cin = ts.cin)
    ∧ (¬ (ts.full = true ∧ ts.buffer.kind = c) → ts.cin.fail = false → isspace c = false →
        (∀ pre rest, ts.cin.input = pre ++ c :: rest → c ∉ pre →
          (ignore c ts).cin = { ts.cin with input := rest })
        ∧ (c ∉ ts.cin.input → (ignore c ts).cin = { ts.cin with input := [], fail := true }))
    ∧ (¬ (ts.full = true ∧ ts.buffer.kind = c) → ts.cin.fail = false → isspace c = true →
        (ignore c ts).cin = { ts.cin with input := [], fail := true }) := by
  have hcond : ¬ (ts.full = true ∧ ts.buffer.kind = c) →
      (ts.full && decide (c = ts.buffer.kind)) = false := by
    intro hb
    by_cases h1 : ts.full = true
    · have : ¬ c = ts.buffer.kind := fun h2 => hb ⟨h1, h2.symm⟩
      simp [this]
    · simp [h1]
  refine ⟨?_, ?_, ?_, ?_, ?_⟩
  · simp only [ignore]
    split_ifs <;> rfl
  · intro hf hk
    simp [ignore, hf, hk]
  · intro hf
    simp only [ignore, hf, if_true]
    split_ifs <;> rfl
  · intro hb hf hc
    refine ⟨fun pre rest hin hpre => ?_, fun hnot => ?_⟩
    · simp [ignore, hcond hb, hf, hin, ignore_loop_found c hc pre rest hpre]
    · simp [ignore, hcond hb, hf, ignore_loop_not_found c _ hnot]
  · intro hb hf hc
    simp [ignore, hcond hb, hf, ignore_loop_space c hc]

/-- On `1 + 2; 3;` with an empty buffer `ignore(';')` leaves ` 3;`, and
`ignore('\n')` on the same input leaves nothing. -/
theorem ignore_discards_witness :
    (ignore ';' (initial ratArith "1 + 2; 3;".toList 'a' 0).ts).cin
        = ⟨" 3;".toList, false, 'a', 0⟩
    ∧ (ignore '\n' (initial ratArith "1 + 2; 3;".toList 'a' 0).ts).cin
        = ⟨[], true, 'a', 0⟩ :=
  ⟨((ignore_discards ';' (initial ratArith "1 + 2; 3;".toList 'a' 0).ts).2.2.2.1
      (by decide) rfl (by decide)).1 "1 + 2".toList " 3;".toList (by decide) (by decide),
   (ignore_discards '\n' (initial ratArith "1 + 2; 3;".toList 'a' 0).ts).2.2.2.2
      (by decide) rfl (by decide)⟩

/-- C13 fails as stated in two cases.  When `c` is a white-space character,
`std::cin >> ch` skips it: `ignore(' ')` on `a b` never sees the blank and
consumes all the input.  And when `std::cin` is in the fail state, as it is
after `get()` on `.;1;` (no number can be read at the `.`), nothing is read:
`ignore(';')` leaves `;1;` unread although a `;` occurs in it. -/
theorem ignore_differs_from_claim :
    (ignore ' ' (initial ratArith "a b".toList 'a' 0).ts).cin = ⟨[], true, 'a', 0⟩
    ∧ get ratArith (initial ratArith ".;1;".toList 'a' 0).ts
        = .ok (token.of_value 0)
            ⟨false, token.of_kind ratArith '\x00', ⟨";1;".toList, true, 'a', 0⟩⟩
    ∧ (ignore ';' (⟨false, token.of_kind ratArith '\x00', ⟨";1;".toList, true, 'a', 0⟩⟩ :
          token_stream ℚ)).cin = ⟨";1;".toList, true, 'a', 0⟩ := by
  decide!

/-! ## Unary minus -/

theorem toks_negs (A : Arith D) (n : Nat) (p : Tree D .primary) :
    (Tree.negs n p).toks A = List.replicate n (token.of_kind A '-') ++ p.toks A := by
  induction n with
  | zero => rfl
  | succ n ih => simp only [Tree.negs, Tree.toks, ih, List.replicate_succ, List.cons_append]

theorem eval_negs (A : Arith D) (n : Nat) (p : Tree D .primary) (m m1 : List (List Char × D))
    (v : D) (h : p.eval A m = .ok v m1) :
    (Tree.negs n p).eval A m = .ok (A.neg^[n] v) m1 := by
  induction n with
  | zero => exact h
  | succ n ih =>
    simp only [Tree.negs, Tree.eval, ih, Val.bind, Function.iterate_succ_apply']

theorem wf_negs (n : Nat) (p : Tree D .primary) (h : p.wf) : (Tree.negs n p).wf := by
  induction n with
  | zero => exact h
  | succ n ih => exact ih

theorem pstop_negs (n : Nat) (p : Tree D .primary) (k : Char) (h : p.pstop k) :
    (Tree.negs n p).pstop k := by
  induction n with
  | zero => exact h
  | succ n ih => exact ih

theorem iterate_neg (A : Arith D) (hneg : ∀ x, A.neg (A.neg x) = x) (n : Nat) (v : D) :
    A.neg^[n] v = if n % 2 = 0 then v else A.neg v := by
  induction n using Nat.strong_induction_on with
  | _ n ih =>
    match n with
    | 0 => rfl
    | 1 => rfl
    | n + 2 =>
      rw [Function.iterate_succ_apply', Function.iterate_succ_apply', hneg, ih n (by omega)]
      have : (n + 2) % 2 = n % 2 := by omega
      rw [this]

/-- C16: unary minus chains.  For every `n` and every primary `p` of value
`v`, `primary()` on `n` minus signs followed by `p` returns, with enough fuel,
`v` when `n` is even and `-v` when `n` is odd (negation of a `double` undoes
itself); it reads nothing beyond `p`, so the tokens `k :: tl` that follow, a
binary operator and its operand for instance, are still offered by the
stream: the negation applies to the primary only. -/
theorem unary_minus_chain (A : Arith D) (hneg : ∀ x, A.neg (A.neg x) = x) (n : Nat)
    (p : Tree D .primary) (s : State D) (k : token D) (tl : List (token D)) (c' : istream D)
    (v : D) (m : List (List Char × D)) (hwf : p.wf) (hps : p.pstop k.kind)
    (hin : Offers A s.ts
      (List.replicate n (token.of_kind A '-') ++ (p.toks A ++ k :: tl)) c')
    (hval : p.eval A s.vars = .ok v m) :
    ∃ s1, s1.vars = m ∧ Offers A s1.ts (k :: tl) c' ∧
      ∃ n0, ∀ j, n0 ≤ j → primary A j s = .ok (if n % 2 = 0 then v else A.neg v) s1 := by
  have h := parser_agrees A (Tree.negs n p) s k tl c' (wf_negs n p hwf)
    (pstop_negs n p _ hps) (by rw [toks_negs, List.append_assoc]; exact hin)
  rw [eval_negs A n p _ _ _ hval, iterate_neg A hneg] at h
  exact h

/-- The statements `- - 5;`, `-2 * 3;` and `- 2 + 3;` give 5, -6 and 1. -/
theorem unary_minus_chain_witness :
    (run 30 "- - 5; -2 * 3; - 2 + 3; q"
      = some [.prompt, .result 5, .prompt, .result (-6), .prompt, .result 1, .prompt])
    ∧ ∃ s1 : State ℚ, s1.vars = []
      ∧ Offers ratArith s1.ts (token.of_kind ratArith '*' ::
          [token.of_value 3, token.of_kind ratArith ';']) ⟨[], false, 'a', 0⟩
      ∧ ∃ n0, ∀ j, n0 ≤ j → primary ratArith j (initial ratArith "- - -2 * 3;".toList 'a' 0)
          = .ok (if 3 % 2 = 0 then 2 else ratArith.neg 2) s1 :=
  ⟨by decide!,
   unary_minus_chain ratArith (fun x => by simp [ratArith, qneg_eq]) 3 (.num 2)
    (initial ratArith "- - -2 * 3;".toList 'a' 0) (token.of_kind ratArith '*')
    [token.of_value 3, token.of_kind ratArith ';'] ⟨[], false, 'a', 0⟩ 2 []
    (by simp [Tree.wf]) (by simp [Tree.pstop]) (by decide) (by decide)⟩

/-! ## The quit command -/

theorem lex_skip_space (A : Arith D) (c : istream D) (x : Char) (r : List Char)
    (hx : isspace x = true) (hf : c.fail = false) (hin : c.input = x :: r) :
    lex A c = lex A { c with input := r } := by
  simp [lex, istream.read_char, hf, hin, List.dropWhile, hx]

theorem lex_punct (A : Arith D) (c : istream D) (x : Char) (r : List Char) (hx : is_punct x)
    (hf : c.fail = false) (hin : c.input = x :: r) :
    lex A c = .ok (token.of_kind A x) { c with input := r } := by
  have hs : isspace x = false := by
    unfold is_punct at hx
    rcases hx with rfl | rfl | rfl | rfl | rfl | rfl | rfl | rfl | rfl | rfl <;> decide
  simp [lex, istream.read_char, hf, hin, List.dropWhile, hs, get_switch_punct A x _ hx]

theorem lex_prints_then (A : Arith D) (x : Char) (hx : is_punct x) (rest : List Char)
    (pre : List Char) :
    ∀ c : istream D, (∀ y ∈ pre, y = ';' ∨ isspace y = true) → c.fail = false →
      c.input = pre ++ x :: rest →
      ∃ semis : List (token D), (∀ t ∈ semis, t.kind = print) ∧ semis.length ≤ pre.length
        ∧ Lex A c (semis ++ [token.of_kind A x]) { c with input := rest } := by
  induction pre with
  | nil =>
    intro c _ hf hin
    refine ⟨[], by simp, by simp, ?_⟩
    simp [Lex, lex_punct A c x rest hx hf hin, IRes.tok, IRes.cin]
  | cons y pre ih =>
    intro c hpre hf hin
    obtain ⟨semis, h1, h2, h3⟩ := ih { c with input := pre ++ x :: rest }
      (fun z hz => hpre z (List.mem_cons_of_mem _ hz)) hf rfl
    rcases hpre y (List.mem_cons_self _ _) with hy | hy
    · subst hy
      refine ⟨token.of_kind A ';' :: semis, ?_, by simp; omega, ?_⟩
      · intro t ht
        rcases List.mem_cons.1 ht with rfl | ht
        · rfl
        · exact h1 t ht
      · have hl := lex_punct A c ';' (pre ++ x :: rest) (by simp [is_punct]) hf hin
        simp only [List.cons_append, Lex, hl, IRes.tok, IRes.cin, true_and]
        exact h3
    · refine ⟨semis, h1, by simp; omega, ?_⟩
      have hl := lex_skip_space A c y (pre ++ x :: rest) hy hf hin
      cases semis with
      | nil =>
        simp only [List.nil_append, Lex] at h3 ⊢
        rw [hl]
        exact h3
      | cons t semis =>
        simp only [List.cons_append, Lex] at h3 ⊢
        rw [hl]
        exact h3

theorem quit_token (A : Arith D) (semis : List (token D)) (hs : ∀ x ∈ semis, x.kind = print)
    (s : State D) (tq : token D) (c' : istream D) (hq : tq.kind = quit)
    (hfail : s.ts.cin.fail = false) (ho : Offers A s.ts (semis ++ [tq]) c') :
    ∃ s1, s1.vars = s.vars ∧ s1.ts.full = false ∧ s1.ts.cin = c' ∧
      ∀ n, semis.length + 2 ≤ n → calculate A n s = some ([.prompt], s1) := by
  have hp : tq.kind ≠ print := by rw [hq]; decide
  obtain ⟨ts1, hf1, ho1, hK⟩ := try_block_head (β := Option D) A semis hs s tq [] c' hp ho
  simp only [Offers] at ho1
  refine ⟨⟨ts1, s.vars⟩, rfl, hf1, ho1.2, fun n hn => ?_⟩
  obtain ⟨m, rfl⟩ : ∃ m, n = m + 1 := ⟨n - 1, by omega⟩
  have ht : try_block A m s = .ok none ⟨ts1, s.vars⟩ := by
    unfold try_block
    rw [hK _ m (by omega), if_pos hq]
  rw [calculate_succ A m s hfail, ht]

theorem quit_run (A : Arith D) (s : State D) (pre rest : List Char)
    (hbuf : s.ts.full = true → s.ts.buffer.kind = print) (hfail : s.ts.cin.fail = false)
    (hpre : ∀ x ∈ pre, x = ';' ∨ isspace x = true)
    (hin : s.ts.cin.input = pre ++ 'q' :: rest) :
    ∃ s1, s1.vars = s.vars ∧ s1.ts.full = false
      ∧ s1.ts.cin = { s.ts.cin with input := rest }
      ∧ ∀ n, pre.length + 3 ≤ n → calculate A n s = some ([.prompt], s1) := by
  obtain ⟨semis, h1, h2, h3⟩ := lex_prints_then A 'q' (by simp [is_punct]) rest pre s.ts.cin
    hpre hfail hin
  by_cases hf : s.ts.full = true
  · have ho : Offers A s.ts ((s.ts.buffer :: semis) ++ [token.of_kind A 'q'])
        { s.ts.cin with input := rest } := by
      simp [Offers, hf, h3]
    obtain ⟨s1, hv, hf1, hc, hn⟩ := quit_token A (s.ts.buffer :: semis)
      (by
        intro x hx
        rcases List.mem_cons.1 hx with rfl | hx
        · exact hbuf hf
        · exact h1 x hx)
      s (token.of_kind A 'q') _ rfl hfail ho
    exact ⟨s1, hv, hf1, hc, fun n h => hn n (by simp; omega)⟩
  · have ho : Offers A s.ts (semis ++ [token.of_kind A 'q'])
        { s.ts.cin with input := rest } :=
      (offers_iff_lex A (by simpa using hf) _ _).2 h3
    obtain ⟨s1, hv, hf1, hc, hn⟩ := quit_token A semis h1 s (token.of_kind A 'q') _ rfl hfail ho
    exact ⟨s1, hv, hf1, hc, fun n h => hn n (by omega)⟩

/-- C18: at the start of a statement the session loop skips any number of
print commands, and if the next token is the quit command it returns without
evaluating anything.  For every input made of `;` and white space, then `q`,
then anything (`rest`), read with an empty buffer or with a `;` in the buffer,
the session writes the prompt and nothing else, and ends; `rest` is left
unread and has no effect on what is written. -/
theorem quit_ends_session (A : Arith D) (s : State D) (pre rest : List Char)
    (hbuf : s.ts.full = true → s.ts.buffer.kind = print) (hfail : s.ts.cin.fail = false)
    (hpre : ∀ x ∈ pre, x = ';' ∨ isspace x = true)
    (hin : s.ts.cin.input = pre ++ 'q' :: rest) :
    ∃ s1, s1.vars = s.vars ∧ s1.ts.full = false
      ∧ s1.ts.cin = { s.ts.cin with input := rest }
      ∧ ∀ n, pre.length + 3 ≤ n → calculate A n s = some ([.prompt], s1) :=
  quit_run A s pre rest hbuf hfail hpre hin

/-- On `;; q 1+1;` the session writes only the prompt. -/
theorem quit_ends_session_witness :
    ∃ s1 : State ℚ, s1.vars = [] ∧ s1.ts.full = false
      ∧ s1.ts.cin = ⟨" 1+1;".toList, false, 'a', 0⟩
      ∧ ∀ n, 3 + 3 ≤ n → calculate ratArith n (initial ratArith ";; q 1+1;".toList 'a' 0)
          = some ([.prompt], s1) :=
  quit_ends_session ratArith (initial ratArith ";; q 1+1;".toList 'a' 0) [';', ';', ' ']
    " 1+1;".toList (by decide) rfl (by decide) (by decide)

/-! ## Expressions without a print command between them -/

section Invariant

variable (A : Arith D) {I : istream D → Prop} {T : token D → Prop}
  {P : List (List Char × D) → Prop}

theorem Res.all_of_get {α : Type}
    (hlex : ∀ c, I c → I (lex A c).cin ∧ ∀ t, (lex A c).tok = some t → T t)
    (s : State D) (hs : Keeps I T P s) (k : token D → State D → Res D α)
    (hk : ∀ t s1, Keeps I T P s1 → T t → s1.ts.full = false → (k t s1).all (Keeps I T P)) :
    (Res.of_ts s (get A s.ts) k).all (Keeps I T P) := by
  obtain ⟨h1, h2, h3⟩ := hs
  by_cases hf : s.ts.full = true
  · have hg : get A s.ts = .ok s.ts.buffer { s.ts with full := false } := by simp [get, hf]
    rw [hg]
    exact hk _ _ ⟨h1, by simp, h3⟩ (h2 hf) rfl
  · have hf' : s.ts.full = false := by simpa using hf
    obtain ⟨hI, hT⟩ := hlex s.ts.cin h1
    cases hl : lex A s.ts.cin with
    | ok t c1 =>
      have hg : get A s.ts = .ok t { s.ts with cin := c1 } := by simp [get, hf', hl]
      rw [hg]
      rw [hl] at hI hT
      exact hk _ _ ⟨hI, by simp [hf'], h3⟩ (hT t rfl) hf'
    | err e c1 =>
      have hg : get A s.ts = .err e { s.ts with cin := c1 } := by simp [get, hf', hl]
      rw [hg]
      rw [hl] at hI
      exact ⟨hI, by simp [hf'], h3⟩

theorem Res.all_of_putback {α : Type} (s : State D) (hf : s.ts.full = false)
    (hs : Keeps I T P s) (t : token D) (ht : T t) (k : Unit → State D → Res D α)
    (hk : ∀ s1, Keeps I T P s1 → (k () s1).all (Keeps I T P)) :
    (Res.of_ts s (putback t s.ts) k).all (Keeps I T P) := by
  rw [of_ts_putback hf]
  exact hk _ ⟨hs.1, fun _ => ht, hs.2.2⟩

theorem Res.all_bind {α β : Type} {Q : State D → Prop} {r : Res D α}
    {k : α → State D → Res D β} (hr : r.all Q) (hk : ∀ a s1, Q s1 → (k a s1).all Q) :
    (r.bind k).all Q := by
  cases r with
  | ok a s1 => exact hk a s1 hr
  | err e s1 => exact hr
  | timeout => trivial

theorem parser_keeps
    (hlex : ∀ c, I c → I (lex A c).cin ∧ ∀ t, (lex A c).tok = some t → T t)
    (hstore : ∀ t nt, T t → T nt → t.kind = var → nt.kind = assignment →
      ∀ v m, P m → P (store t.name v m))
    (n : Nat) :
    (∀ s, Keeps I T P s → (primary A n s).all (Keeps I T P))
    ∧ (∀ left s, Keeps I T P s → (term_loop A n left s).all (Keeps I T P))
    ∧ (∀ s, Keeps I T P s → (term A n s).all (Keeps I T P))
    ∧ (∀ left s, Keeps I T P s → (expression_loop A n left s).all (Keeps I T P))
    ∧ (∀ s, Keeps I T P s → (expression A n s).all (Keeps I T P)) := by
  induction n with
  | zero =>
    refine ⟨?_, ?_, ?_, ?_, ?_⟩ <;> intros <;>
      simp only [primary, term_loop, term, expression_loop, expression] <;> trivial
  | succ n ih =>
    obtain ⟨hp, htl, ht, hel, he⟩ := ih
    refine ⟨?_, ?_, ?_, ?_, ?_⟩
    · intro s hs
      rw [primary_succ]
      refine Res.all_of_get A hlex s hs _ fun t s1 hs1 hT _ => ?_
      split_ifs with h1 h2 h3 h4
      · refine Res.all_bind (he s1 hs1) fun d s2 hs2 => ?_
        refine Res.all_of_get A hlex s2 hs2 _ fun t2 s3 hs3 _ _ => ?_
        split_ifs
        · exact hs3
        · exact hs3
      · exact hs1
      · exact Res.all_bind (hp s1 hs1) fun v s2 hs2 => hs2
      · refine Res.all_of_get A hlex s1 hs1 _ fun nt s2 hs2 hnt hf2 => ?_
        split_ifs with h5
        · refine Res.all_bind (he s2 hs2) fun v s3 hs3 => ?_
          exact ⟨hs3.1, hs3.2.1, hstore t nt hT hnt h4 h5 v _ hs3.2.2⟩
        · refine Res.all_of_putback s2 hf2 hs2 nt hnt _ fun s3 hs3 => ?_
          split
          · exact hs3
          · exact hs3
      · exact hs1
    · intro left s hs
      rw [term_loop_succ]
      refine Res.all_of_get A hlex s hs _ fun t s1 hs1 hT hf1 => ?_
      split_ifs
      · exact Res.all_bind (hp s1 hs1) fun v s2 hs2 => htl _ s2 hs2
      · refine Res.all_bind (hp s1 hs1) fun v s2 hs2 => ?_
        split_ifs
        · exact hs2
        · exact htl _ s2 hs2
      · refine Res.all_bind (hp s1 hs1) fun v s2 hs2 => ?_
        split_ifs
        · exact hs2
        · exact htl _ s2 hs2
      · exact Res.all_of_putback s1 hf1 hs1 t hT _ fun s2 hs2 => hs2
    · intro s hs
      rw [term_succ]
      exact Res.all_bind (hp s hs) fun v s2 hs2 => htl _ s2 hs2
    · intro left s hs
      rw [expression_loop_succ]
      refine Res.all_of_get A hlex s hs _ fun t s1 hs1 hT hf1 => ?_
      split_ifs
      · exact Res.all_bind (ht s1 hs1) fun v s2 hs2 => hel _ s2 hs2
      · exact Res.all_bind (ht s1 hs1) fun v s2 hs2 => hel _ s2 hs2
      · exact Res.all_of_putback s1 hf1 hs1 t hT _ fun s2 hs2 => hs2
    · intro s hs
      rw [expression_succ]
      exact Res.all_bind (ht s hs) fun v s2 hs2 => hel _ s2 hs2

theorem skip_prints_keeps
    (hlex : ∀ c, I c → I (lex A c).cin ∧ ∀ t, (lex A c).tok = some t → T t) (n : Nat) :
    ∀ (t : token D) (s : State D), Keeps I T P s → T t → s.ts.full = false →
      (skip_prints A n t s).all (fun s1 => Keeps I T P s1 ∧ s1.ts.full = false)
      ∧ ∀ t1 s1, skip_prints A n t s = .ok t1 s1 → T t1 := by
  induction n with
  | zero =>
    intro t s _ _ _
    exact ⟨trivial, fun t1 s1 h => by simp [skip_prints] at h⟩
  | succ n ih =>
    intro t s hs hT hf
    rw [skip_prints_succ]
    split_ifs with hk
    · obtain ⟨h1, h2, h3⟩ := hs
      obtain ⟨hI, hT'⟩ := hlex s.ts.cin h1
      cases hl : lex A s.ts.cin with
      | ok t2 c1 =>
        have hg : get A s.ts = .ok t2 { s.ts with cin := c1 } := by simp [get, hf, hl]
        rw [hg]
        rw [hl] at hI hT'
        exact ih t2 _ ⟨hI, by simp [hf], h3⟩ (hT' t2 rfl) hf
      | err e c1 =>
        have hg : get A s.ts = .err e { s.ts with cin := c1 } := by simp [get, hf, hl]
        rw [hg]
        rw [hl] at hI
        exact ⟨⟨⟨hI, by simp [hf], h3⟩, hf⟩, fun t1 s1 h => by simp [Res.of_ts] at h⟩
    · refine ⟨⟨hs, hf⟩, fun t1 s1 h => ?_⟩
      cases h
      exact hT

theorem try_block_keeps
    (hlex : ∀ c, I c → I (lex A c).cin ∧ ∀ t, (lex A c).tok = some t → T t)
    (hstore : ∀ t nt, T t → T nt → t.kind = var → nt.kind = assignment →
      ∀ v m, P m → P (store t.name v m))
    (n : Nat) (s : State D) (hs : Keeps I T P s) :
    (try_block A n s).all (Keeps I T P) := by
  unfold try_block
  refine Res.all_of_get A hlex s hs _ fun t s1 hs1 hT hf1 => ?_
  obtain ⟨h1, h2⟩ := skip_prints_keeps A hlex n t s1 hs1 hT hf1
  cases hr : skip_prints A n t s1 with
  | timeout => trivial
  | err e s2 =>
    rw [hr] at h1
    exact h1.1
  | ok t1 s2 =>
    rw [hr] at h1
    simp only [Res.bind]
    split_ifs
    · exact h1.1
    · refine Res.all_of_putback s2 h1.2 h1.1 t1 (h2 t1 s2 hr) _ fun s3 hs3 => ?_
      exact Res.all_bind ((parser_keeps A hlex hstore n).2.2.2.2 s3 hs3) fun v s4 hs4 => hs4

theorem reachable_keeps
    (hlex : ∀ c, I c → I (lex A c).cin ∧ ∀ t, (lex A c).tok = some t → T t)
    (hstore : ∀ t nt, T t → T nt → t.kind = var → nt.kind = assignment →
      ∀ v m, P m → P (store t.name v m))
    (hign : ∀ ts : token_stream D, I ts.cin → I (ignore print ts).cin)
    (s0 s : State D) (h0 : Keeps I T P s0) (h : Reachable A s0 s) : Keeps I T P s := by
  induction h with
  | start => exact h0
  | returned n a s s1 _ ht ih =>
    have := try_block_keeps A hlex hstore n s ih
    rw [ht] at this
    exact this
  | thrown n e s s1 _ ht ih =>
    have := try_block_keeps A hlex hstore n s ih
    rw [ht] at this
    exact this
  | recovered n e s s1 _ ht ih =>
    have := try_block_keeps A hlex hstore n s ih
    rw [ht] at this
    refine ⟨hign _ this.1, ?_, this.2.2⟩
    intro hf
    have : (ignore print s1.ts).full = false := by
      simp only [ignore]
      split_ifs <;> rfl
    simp only [clean_up_mess] at hf
    rw [this] at hf
    cases hf

end Invariant

/-! ## The variables change only through assignment -/

theorem get_switch_no_assignment (A : Arith D) (hscan : scan_keeps_print A) (ch : Char)
    (c0 : istream D) (hch : ch ≠ '=') (h0 : '=' ∉ c0.input) :
    '=' ∉ (get_switch A ch c0).cin.input
      ∧ (get_switch A ch c0).cin.uninit_ch = c0.uninit_ch
      ∧ ∀ t, (get_switch A ch c0).tok = some t → t.kind ≠ assignment := by
  have hv : ∀ (v : D) (t : token D), some (token.of_value v) = some t → t.kind ≠ assignment := by
    intro v t ht
    simp only [Option.some.injEq] at ht
    rw [← ht]
    simp [token.of_value, number, assignment]
  have hn : ∀ (name : List Char) (t : token D),
      some (token.of_name A var name) = some t → t.kind ≠ assignment := by
    intro name t ht
    simp only [Option.some.injEq] at ht
    rw [← ht]
    simp [token.of_name, var, assignment]
  unfold get_switch
  split_ifs with h1 h2 h3 h4 h5
  · refine ⟨h0, rfl, fun t ht => ?_⟩
    simp only [IRes.tok, Option.some.injEq] at ht
    rw [← ht]
    exact hch
  · exact ⟨h0, rfl, hv _⟩
  · cases hs : A.scan (ch :: c0.input) with
    | none => exact ⟨h0, rfl, hv _⟩
    | some x =>
      obtain ⟨v, rest⟩ := x
      obtain ⟨pre, hp, _⟩ := hscan _ _ _ hs
      refine ⟨?_, rfl, hv _⟩
      intro hm
      have : '=' ∈ ch :: c0.input := by
        rw [hp]
        exact List.mem_append_right _ hm
      rcases List.mem_cons.1 this with h | h
      · exact hch h.symm
      · exact h0 h
  · simp only
    split
    · exact ⟨h0, rfl, hv _⟩
    · exact ⟨h0, rfl, hn _⟩
  · have hd : '=' ∉ (name_loop [ch] c0.input).2.1 := by
      rw [name_loop_eq]
      exact fun hm => h0 ((List.dropWhile_sublist _).subset hm)
    simp only
    split
    · exact ⟨hd, rfl, hv _⟩
    · exact ⟨hd, rfl, hn _⟩
  · exact ⟨h0, rfl, fun t ht => by simp [IRes.tok] at ht⟩

theorem lex_no_assignment (A : Arith D) (hscan : scan_keeps_print A) (c : istream D)
    (h : '=' ∉ c.input ∧ c.uninit_ch ≠ '=') :
    ('=' ∉ (lex A c).cin.input ∧ (lex A c).cin.uninit_ch ≠ '=')
      ∧ ∀ t, (lex A c).tok = some t → t.kind ≠ assignment := by
  obtain ⟨h0, hu⟩ := h
  have hsub : ∀ x, x ∈ c.input.dropWhile isspace → x ∈ c.input :=
    fun x hx => (List.dropWhile_sublist _).subset hx
  by_cases hf : c.fail = true
  · have hl : lex A c = get_switch A c.uninit_ch c := by
      simp [lex, istream.read_char, hf]
    rw [hl]
    obtain ⟨a, b, d⟩ := get_switch_no_assignment A hscan c.uninit_ch c hu h0
    exact ⟨⟨a, by rw [b]; exact hu⟩, d⟩
  · have hf' : c.fail = false := by simpa using hf
    cases hd : c.input.dropWhile isspace with
    | nil =>
      have hl : lex A c = get_switch A c.uninit_ch { c with input := [], fail := true } := by
        simp [lex, istream.read_char, hf', hd]
      rw [hl]
      obtain ⟨a, b, d⟩ := get_switch_no_assignment A hscan c.uninit_ch
        { c with input := [], fail := true } hu (by simp)
      exact ⟨⟨a, by rw [b]; exact hu⟩, d⟩
    | cons x rest =>
      have hl : lex A c = get_switch A x { c with input := rest } := by
        simp [lex, istream.read_char, hf', hd]
      rw [hl]
      have hx : x ≠ '=' := by
        rintro rfl
        exact h0 (hsub _ (by rw [hd]; exact List.mem_cons_self _ _))
      have hr : '=' ∉ rest := fun hm =>
        h0 (hsub _ (by rw [hd]; exact List.mem_cons_of_mem _ hm))
      obtain ⟨a, b, d⟩ := get_switch_no_assignment A hscan x { c with input := rest } hx hr
      exact ⟨⟨a, by rw [b]; exact hu⟩, d⟩

theorem parser_frame (A : Arith D) (hscan : scan_keeps_print A) (n : Nat) (s : State D)
    (hbuf : s.ts.full = true → s.ts.buffer.kind ≠ assignment)
    (hin : '=' ∉ s.ts.cin.input) (hu : s.ts.cin.uninit_ch ≠ '=') :
    (expression A n s).all
      (Keeps (fun c => '=' ∉ c.input ∧ c.uninit_ch ≠ '=') (fun t => t.kind ≠ assignment)
        (fun m => m = s.vars)) :=
  (parser_keeps A (lex_no_assignment A hscan)
    (fun _ _ _ hnt _ hk => absurd hk hnt) n).2.2.2.2 s ⟨⟨hin, hu⟩, hbuf, rfl⟩

theorem lex_x (A : Arith D) (c : istream D) (y : List Char) (hf : c.fail = false)
    (hin : c.input = 'x' :: ';' :: y) :
    lex A c = .ok (token.of_name A var ['x']) { c with input := ';' :: y } := by
  simp [lex, istream.read_char, hf, hin, List.dropWhile, isspace, get_switch, isdigit,
    isalpha, name_loop, symbols, List.lookup]

theorem x_statement (A : Arith D) (s : State D) (v : D) (rest : List Char)
    (hbuf : s.ts.full = true → s.ts.buffer.kind = print) (hfail : s.ts.cin.fail = false)
    (hv : s.vars.lookup ['x'] = some v) (hin : s.ts.cin.input = 'x' :: ';' :: rest) :
    ∃ s1, s1.vars = s.vars ∧ s1.ts.full = true ∧ s1.ts.buffer.kind = print
      ∧ s1.ts.cin = { s.ts.cin with input := rest }
      ∧ Conv (fun n => try_block A n s) (.ok (some v) s1) := by
  have hl : Lex A s.ts.cin [token.of_name A var ['x'], token.of_kind A ';']
      { s.ts.cin with input := rest } := by
    have h1 := lex_x A s.ts.cin rest hfail hin
    have h2 := lex_punct A { s.ts.cin with input := ';' :: rest } ';' rest
      (by simp [is_punct]) hfail rfl
    simp only [Lex, h1, IRes.tok, IRes.cin, h2, true_and]
  have key : ∀ semis : List (token D), (∀ x ∈ semis, x.kind = print) →
      Offers A s.ts (semis ++ ((Tree.of_term (.of_primary (.ref ['x'])) : Tree D .expression).toks A
        ++ token.of_kind A ';' :: [])) { s.ts.cin with input := rest } →
      ∃ s1, s1.vars = s.vars ∧ s1.ts.full = true ∧ s1.ts.buffer.kind = print
        ∧ s1.ts.cin = { s.ts.cin with input := rest }
        ∧ Conv (fun n => try_block A n s) (.ok (some v) s1) := by
    intro semis hs ho
    have h := try_block_statement A semis hs (.of_term (.of_primary (.ref ['x']))) s
      (token.of_kind A ';') [] _ (by simp [Tree.wf]) (by simp [Tree.pstop, token.of_kind, assignment])
      (by simp [is_operator, token.of_kind]) ho
    simp only [Tree.eval, hv] at h
    obtain ⟨s1, h1, h2, h3, h4, h5⟩ := h
    exact ⟨s1, h1, h2, by rw [h3]; rfl, h4, h5⟩
  by_cases hf : s.ts.full = true
  · exact key [s.ts.buffer] (by simpa using hbuf hf) (by simpa [Offers, hf, Tree.toks] using hl)
  · exact key [] (by simp)
      ((offers_iff_lex A (by simpa using hf) _ _).2 (by simpa [Tree.toks] using hl))

theorem x_repeated (A : Arith D) (v : D) (rest : List Char) :
    ∀ (k : Nat) (s : State D), (s.ts.full = true → s.ts.buffer.kind = print) →
      s.ts.cin.fail = false → s.vars.lookup ['x'] = some v →
      s.ts.cin.input = (fun l => 'x' :: ';' :: l)^[k] ('q' :: rest) →
      ∃ s1, s1.vars = s.vars ∧ ∃ n0, ∀ n, n0 ≤ n →
        calculate A n s
          = some ((fun o => Output.prompt :: Output.result v :: o)^[k] [Output.prompt], s1) := by
  intro k
  induction k with
  | zero =>
    intro s hbuf hfail _ hin
    obtain ⟨s1, h1, _, _, h4⟩ := quit_run A s [] rest hbuf hfail (by simp) hin
    exact ⟨s1, h1, 3, fun n hn => h4 n (by simpa using hn)⟩
  | succ k ih =>
    intro s hbuf hfail hv hin
    rw [Function.iterate_succ_apply'] at hin
    obtain ⟨s1, h1, h2, h3, h4, n0, h5⟩ := x_statement A s v _ hbuf hfail hv hin
    obtain ⟨s2, g1, n1, g2⟩ := ih s1 (fun _ => h3) (by rw [h4]; exact hfail)
      (by rw [h1]; exact hv) (by rw [h4])
    refine ⟨s2, by rw [g1, h1], max n0 n1 + 1, fun n hn => ?_⟩
    obtain ⟨m, rfl⟩ : ∃ m, n = m + 1 := ⟨n - 1, by omega⟩
    have e1 := h5 m (by omega)
    simp only at e1
    rw [calculate_succ A m s hfail, e1]
    simp only
    rw [g2 m (by omega), Function.iterate_succ_apply']
    rfl

/-- C14: the variables change only through assignment.  When no `=` can be
read (none in the unread input, none in the buffer, and the unset local `ch`
of `get()` is none), `expression()` leaves the variables as they were, both
when it returns a value and when it throws.  And once `x` has a value `v`,
the statement `x;` yields `v` however often it is repeated: on `k` statements
`x;` followed by `q` the session writes the result `v` exactly `k` times and
ends with the variables unchanged. -/
theorem variables_change_only_by_assignment (A : Arith D) (hscan : scan_keeps_print A)
    (n : Nat) (s : State D)
    (hbuf : s.ts.full = true → s.ts.buffer.kind ≠ assignment)
    (hin : '=' ∉ s.ts.cin.input) (hu : s.ts.cin.uninit_ch ≠ '=') :
    (∀ v s1, expression A n s = .ok v s1 → s1.vars = s.vars)
    ∧ (∀ e s1, expression A n s = .err e s1 → s1.vars = s.vars)
    ∧ ∀ (k : Nat) (v : D) (rest : List Char) (s0 : State D),
        (s0.ts.full = true → s0.ts.buffer.kind = print) → s0.ts.cin.fail = false →
        s0.vars.lookup ['x'] = some v →
        s0.ts.cin.input = (fun l => 'x' :: ';' :: l)^[k] ('q' :: rest) →
        ∃ s1, s1.vars = s0.vars ∧ ∃ n0, ∀ j, n0 ≤ j →
          calculate A j s0
            = some ((fun o => Output.prompt :: Output.result v :: o)^[k] [Output.prompt], s1) := by
  have h := parser_frame A hscan n s hbuf hin hu
  refine ⟨fun v s1 h1 => ?_, fun e s1 h1 => ?_, fun k v rest s0 => x_repeated A v rest k s0⟩
  · rw [h1] at h
    exact h.2.2
  · rw [h1] at h
    exact h.2.2

/-- On `y + 2 * x;` with `x = 3` stored and `y` unknown, `expression()`
throws and the variables are as before; on `x + 2;` it returns and the
variables are as before; and the session on `x = 3; x; x; x; q` writes 3 four
times. -/
theorem variables_change_only_by_assignment_witness :
    ((∀ v s1, expression ratArith 20
          ⟨⟨false, token.of_kind ratArith ';', ⟨"y + 2 * x;".toList, false, 'a', 0⟩⟩,
            [(['x'], 3)]⟩ = .ok v s1 → s1.vars = [(['x'], 3)])
      ∧ (∀ e s1, expression ratArith 20
          ⟨⟨false, token.of_kind ratArith ';', ⟨"y + 2 * x;".toList, false, 'a', 0⟩⟩,
            [(['x'], 3)]⟩ = .err e s1 → s1.vars = [(['x'], 3)])
      ∧ ∀ (k : Nat) (v : ℚ) (rest : List Char) (s0 : State ℚ),
          (s0.ts.full = true → s0.ts.buffer.kind = print) → s0.ts.cin.fail = false →
          s0.vars.lookup ['x'] = some v →
          s0.ts.cin.input = (fun l => 'x' :: ';' :: l)^[k] ('q' :: rest) →
          ∃ s1, s1.vars = s0.vars ∧ ∃ n0, ∀ j, n0 ≤ j →
            calculate ratArith j s0
              = some ((fun o => Output.prompt :: Output.result v :: o)^[k] [Output.prompt], s1))
    ∧ (∃ s1, expression ratArith 20
          ⟨⟨false, token.of_kind ratArith ';', ⟨"y + 2 * x;".toList, false, 'a', 0⟩⟩,
            [(['x'], 3)]⟩ = .err (.undefined_symbol ['y']) s1)
    ∧ run 30 "x = 3; x; x; x; q"
        = some [.prompt, .result 3, .prompt, .result 3, .prompt, .result 3, .prompt, .result 3,
            .prompt] :=
  ⟨variables_change_only_by_assignment ratArith ratArith_scan_keeps_print 20
      ⟨⟨false, token.of_kind ratArith ';', ⟨"y + 2 * x;".toList, false, 'a', 0⟩⟩, [(['x'], 3)]⟩
      (by decide) (by decide) (by decide),
    ⟨⟨⟨true, token.of_kind ratArith '+', ⟨" 2 * x;".toList, false, 'a', 0⟩⟩, [(['x'], 3)]⟩,
      by decide!⟩, by decide!⟩

/-! ## The names of the variables -/

theorem store_keys (Q : List Char → Prop) (name : List Char) (val : D) (hq : Q name) :
    ∀ m : List (List Char × D), (∀ k w, (k, w) ∈ m → Q k) →
      ∀ k w, (k, w) ∈ store name val m → Q k := by
  intro m
  induction m with
  | nil =>
    intro _ k w hk
    simp only [store, List.mem_singleton, Prod.mk.injEq] at hk
    rw [hk.1]
    exact hq
  | cons p m ih =>
    obtain ⟨k0, v0⟩ := p
    intro hm k w hk
    simp only [store] at hk
    split_ifs at hk with h0
    · rcases List.mem_cons.1 hk with h | h
      · simp only [Prod.mk.injEq] at h
        rw [h.1, h0]
        exact hq
      · exact hm k w (List.mem_cons_of_mem _ h)
    · rcases List.mem_cons.1 hk with h | h
      · simp only [Prod.mk.injEq] at h
        rw [h.1]
        exact hm k0 v0 (List.mem_cons_self _ _)
      · exact ih (fun k w h => hm k w (List.mem_cons_of_mem _ h)) k w h

theorem reachable_keys (A : Arith D) (Q : List Char → Prop)
    (hlex : ∀ c t c1, lex A c = .ok t c1 → t.kind = var → Q t.name)
    (inp : List Char) (uch : Char) (uval : D) (s : State D)
    (h : Reachable A (initial A inp uch uval) s) :
    (s.ts.full = true → s.ts.buffer.kind = var → Q s.ts.buffer.name)
      ∧ ∀ name v, (name, v) ∈ s.vars → Q name := by
  have := @reachable_keeps D A (fun _ => True) (fun t => t.kind = var → Q t.name)
    (fun m => ∀ name v, (name, v) ∈ m → Q name)
    (fun c _ => ⟨trivial, fun t ht => by
      cases hl : lex A c with
      | ok t0 c1 =>
        rw [hl] at ht
        simp only [IRes.tok, Option.some.injEq] at ht
        rw [← ht]
        exact hlex c t0 c1 hl
      | err e c1 =>
        rw [hl] at ht
        simp [IRes.tok] at ht⟩)
    (fun t _ ht _ hk _ v m hm => store_keys Q t.name v (ht hk) m hm)
    (fun _ _ => trivial) (initial A inp uch uval) s
    ⟨trivial, fun hf => by simp [initial] at hf, fun name v hm => by simp [initial] at hm⟩ h
  exact ⟨this.2.1, this.2.2⟩

theorem get_switch_name_head (A : Arith D) (ch : Char) (c0 : istream D) (t : token D)
    (h : (get_switch A ch c0).tok = some t) : t.name.head? ≠ some 'q' := by
  have hk : ∀ k : Char, some (token.of_kind A k) = some t → t.name.head? ≠ some 'q' := by
    intro k ht
    simp only [Option.some.injEq] at ht
    rw [← ht]
    simp [token.of_kind]
  have hv : ∀ v : D, some (token.of_value v) = some t → t.name.head? ≠ some 'q' := by
    intro v ht
    simp only [Option.some.injEq] at ht
    rw [← ht]
    simp [token.of_value]
  have hn : ∀ r : List Char, ch ≠ 'q' →
      some (token.of_name A var (ch :: r)) = some t → t.name.head? ≠ some 'q' := by
    intro r hq ht
    simp only [Option.some.injEq] at ht
    rw [← ht]
    simpa [token.of_name] using hq
  unfold get_switch at h
  split_ifs at h with h1 h2 h3 h4 h5 h6
  · exact hk _ h
  · exact hv _ h
  · cases hs : A.scan (ch :: c0.input) with
    | none =>
      rw [hs] at h
      exact hv _ h
    | some x =>
      rw [hs] at h
      exact hv _ h
  · exact hk _ h
  · have hq : ch ≠ 'q' := fun e => h1 (by simp [e])
    simp only at h
    split at h
    · exact hv _ h
    · exact hn _ hq h
  · have hq : ch ≠ 'q' := fun e => h1 (by simp [e])
    simp only [name_loop_eq, List.singleton_append] at h
    split at h
    · exact hv _ h
    · exact hn _ hq h
  · simp [IRes.tok] at h

theorem lex_name_head (A : Arith D) (c : istream D) (t : token D)
    (h : (lex A c).tok = some t) : t.name.head? ≠ some 'q' := by
  unfold lex at h
  split at h
  · exact get_switch_name_head A _ _ t h
  · exact get_switch_name_head A _ _ t h

theorem pi_statement (A : Arith D) (s : State D) (rest : List Char)
    (hbuf : s.ts.full = true → s.ts.buffer.kind = print) (hfail : s.ts.cin.fail = false)
    (hin : s.ts.cin.input = 'p' :: 'i' :: ';' :: rest) :
    ∃ s1, s1.vars = s.vars ∧ s1.ts.full = true ∧ s1.ts.buffer.kind = print
      ∧ s1.ts.cin = { s.ts.cin with input := rest }
      ∧ Conv (fun n => try_block A n s) (.ok (some A.pi) s1) := by
  have hl : Lex A s.ts.cin [token.of_value A.pi, token.of_kind A ';']
      { s.ts.cin with input := rest } := by
    have h1 := lex_constant A ['p', 'i'] A.pi (by simp [symbols]) s.ts.cin ';' rest
      (by decide) hfail hin
    have h2 := lex_punct A { s.ts.cin with input := ';' :: rest } ';' rest
      (by simp [is_punct]) hfail rfl
    simp only [Lex, h1, IRes.tok, IRes.cin, h2, true_and]
  have key : ∀ semis : List (token D), (∀ x ∈ semis, x.kind = print) →
      Offers A s.ts (semis ++ ((Tree.of_term (.of_primary (.num A.pi)) : Tree D .expression).toks A
        ++ token.of_kind A ';' :: [])) { s.ts.cin with input := rest } →
      ∃ s1, s1.vars = s.vars ∧ s1.ts.full = true ∧ s1.ts.buffer.kind = print
        ∧ s1.ts.cin = { s.ts.cin with input := rest }
        ∧ Conv (fun n => try_block A n s) (.ok (some A.pi) s1) := by
    intro semis hs ho
    have h := try_block_statement A semis hs (.of_term (.of_primary (.num A.pi))) s
      (token.of_kind A ';') [] _ (by simp [Tree.wf]) (by simp [Tree.pstop])
      (by simp [is_operator, token.of_kind]) ho
    simp only [Tree.eval] at h
    obtain ⟨s1, h1, h2, h3, h4, h5⟩ := h
    exact ⟨s1, h1, h2, by rw [h3]; rfl, h4, h5⟩
  by_cases hf : s.ts.full = true
  · exact key [s.ts.buffer] (by simpa using hbuf hf) (by simpa [Offers, hf, Tree.toks] using hl)
  · exact key [] (by simp)
      ((offers_iff_lex A (by simpa using hf) _ _).2 (by simpa [Tree.toks] using hl))

/-- C15: the constants are immutable and cannot be shadowed.  The map
`symbols` holds `e` and `pi` with their startup values, and the one access
that could write it, `symbols[s]` in `get()`, is made only for a key that is
present, where it returns the entry and leaves the map as it is; no other
statement of the program names `symbols`.  In every state the session
reaches from its start, on any input, no key of `variables` is the name of a
constant, and the statement `pi;` read at the start of a statement (empty
buffer or a `;` in it) yields the startup value of `pi` and leaves the
variables unchanged. -/
theorem constants_immutable (A : Arith D) (inp : List Char) (uch : Char) (uval : D)
    (s : State D) (h : Reachable A (initial A inp uch uval) s) :
    symbols A = [(['e'], A.e), (['p', 'i'], A.pi)]
    ∧ (∀ name v, (symbols A).lookup name = some v →
        index A.zero name (symbols A) = (v, symbols A))
    ∧ (∀ name v, (name, v) ∈ s.vars → (symbols A).lookup name = none)
    ∧ ∀ rest, (s.ts.full = true → s.ts.buffer.kind = print) → s.ts.cin.fail = false →
        s.ts.cin.input = 'p' :: 'i' :: ';' :: rest →
        ∃ s1, s1.vars = s.vars ∧ ∃ n0, ∀ n, n0 ≤ n → try_block A n s = .ok (some A.pi) s1 := by
  refine ⟨rfl, fun name v hl => by simp [index, hl], ?_, fun rest hbuf hfail hin => ?_⟩
  · exact (reachable_keys A (fun name => (symbols A).lookup name = none)
      (fun c t c1 hl hk => lex_name_not_constant A c c1 t hl hk) inp uch uval s h).2
  · obtain ⟨s1, h1, _, _, _, h5⟩ := pi_statement A s rest hbuf hfail hin
    exact ⟨s1, h1, h5⟩

/-- On `x = 1;pi = 2;pi;` the session stores `x`, writes the value of `pi`,
reports `primary expected` at the `=` and recovers; in the state reached the
only variable is `x`, and `pi;` writes the startup value of `pi`. -/
theorem constants_immutable_witness :
    Reachable ratArith (initial ratArith "x = 1;pi = 2;pi;".toList 'a' 0)
        (clean_up_mess
          ⟨⟨false, token.of_kind ratArith '=', ⟨" 2;pi;".toList, false, 'a', 0⟩⟩, [(['x'], 1)]⟩)
    ∧ (symbols ratArith = [(['e'], ratArith.e), (['p', 'i'], ratArith.pi)]
      ∧ (∀ name v, (symbols ratArith).lookup name = some v →
          index ratArith.zero name (symbols ratArith) = (v, symbols ratArith))
      ∧ (∀ name v, (name, v) ∈ (clean_up_mess (D := ℚ)
            ⟨⟨false, token.of_kind ratArith '=', ⟨" 2;pi;".toList, false, 'a', 0⟩⟩,
              [(['x'], 1)]⟩).vars → (symbols ratArith).lookup name = none)
      ∧ ∀ rest,
          ((clean_up_mess (D := ℚ)
            ⟨⟨false, token.of_kind ratArith '=', ⟨" 2;pi;".toList, false, 'a', 0⟩⟩,
              [(['x'], 1)]⟩).ts.full = true →
            (clean_up_mess (D := ℚ)
            ⟨⟨false, token.of_kind ratArith '=', ⟨" 2;pi;".toList, false, 'a', 0⟩⟩,
              [(['x'], 1)]⟩).ts.buffer.kind = print) →
          (clean_up_mess (D := ℚ)
            ⟨⟨false, token.of_kind ratArith '=', ⟨" 2;pi;".toList, false, 'a', 0⟩⟩,
              [(['x'], 1)]⟩).ts.cin.fail = false →
          (clean_up_mess (D := ℚ)
            ⟨⟨false, token.of_kind ratArith '=', ⟨" 2;pi;".toList, false, 'a', 0⟩⟩,
              [(['x'], 1)]⟩).ts.cin.input = 'p' :: 'i' :: ';' :: rest →
          ∃ s1, s1.vars = (clean_up_mess (D := ℚ)
            ⟨⟨false, token.of_kind ratArith '=', ⟨" 2;pi;".toList, false, 'a', 0⟩⟩,
              [(['x'], 1)]⟩).vars
            ∧ ∃ n0, ∀ n, n0 ≤ n → try_block ratArith n (clean_up_mess
                ⟨⟨false, token.of_kind ratArith '=', ⟨" 2;pi;".toList, false, 'a', 0⟩⟩,
                  [(['x'], 1)]⟩) = .ok (some ratArith.pi) s1)
    ∧ ratArith.pi = mkRat 314159265358979323846 100000000000000000000
    ∧ ratArith.e = mkRat 271828182845904523536 100000000000000000000
    ∧ run 30 "x = 1;pi = 2;pi;q"
        = some [.prompt, .result 1, .prompt, .result ratArith.pi, .prompt,
            .error .primary_expected, .prompt, .result ratArith.pi, .prompt] :=
  have hr : Reachable ratArith (initial ratArith "x = 1;pi = 2;pi;".toList 'a' 0)
      (clean_up_mess
        ⟨⟨false, token.of_kind ratArith '=', ⟨" 2;pi;".toList, false, 'a', 0⟩⟩, [(['x'], 1)]⟩) :=
    .recovered 10 .primary_expected
      ⟨⟨true, token.of_kind ratArith '=', ⟨" 2;pi;".toList, false, 'a', 0⟩⟩, [(['x'], 1)]⟩ _
      (.returned 10 (some ratArith.pi)
        ⟨⟨true, token.of_kind ratArith ';', ⟨"pi = 2;pi;".toList, false, 'a', 0⟩⟩, [(['x'], 1)]⟩ _
        (.returned 10 (some 1) _ _ .start (by decide!)) (by decide!)) (by decide!)
  ⟨hr, constants_immutable ratArith _ 'a' 0 _ hr, by decide!, by decide!, by decide!⟩

/-- C19: no identifier can begin with `q`.  Whatever the state of `std::cin`,
the token that `get()` reads from it has no name starting with `q`, and a `q`
that starts a word is returned as the quit command, the rest of the word
being left unread.  In every state the session reaches from its start, on
any input, `get()` returns no token with such a name and `variables` has no
key starting with `q`; and an input starting with `q` at the start of a
statement (empty buffer or a `;` in it), such as `qx = 1;`, ends the session
with nothing written but the prompt, the variables unchanged and the rest
(`x = 1;`) unread. -/
theorem no_identifier_begins_with_q (A : Arith D) (inp : List Char) (uch : Char) (uval : D)
    (s : State D) (h : Reachable A (initial A inp uch uval) s) :
    (∀ c t, (lex A c).tok = some t → t.name.head? ≠ some 'q')
    ∧ (∀ c rest, c.fail = false → c.input = 'q' :: rest →
        lex A c = .ok (token.of_kind A quit) { c with input := rest })
    ∧ (∀ t ts1, get A s.ts = .ok t ts1 → t.kind = var → t.name.head? ≠ some 'q')
    ∧ (∀ name v, (name, v) ∈ s.vars → name.head? ≠ some 'q')
    ∧ ∀ rest, (s.ts.full = true → s.ts.buffer.kind = print) → s.ts.cin.fail = false →
        s.ts.cin.input = 'q' :: rest →
        ∃ s1, s1.vars = s.vars ∧ s1.ts.cin = { s.ts.cin with input := rest }
          ∧ ∀ n, 3 ≤ n → calculate A n s = some ([.prompt], s1) := by
  have hk := reachable_keys A (fun name => name.head? ≠ some 'q')
    (fun c t c1 hl _ => lex_name_head A c t (by rw [hl]; rfl)) inp uch uval s h
  refine ⟨fun c t => lex_name_head A c t,
    fun c rest hf hin => lex_punct A c 'q' rest (by simp [is_punct]) hf hin,
    fun t ts1 hg hv => ?_, hk.2, fun rest hbuf hfail hin => ?_⟩
  · by_cases hf : s.ts.full = true
    · have e : t = s.ts.buffer := by
        simp only [get, hf, if_true, LRes.ok.injEq] at hg
        exact hg.1.symm
      rw [e] at hv ⊢
      exact hk.1 hf hv
    · simp only [get, hf, Bool.false_eq_true, if_false] at hg
      cases hl : lex A s.ts.cin with
      | ok t0 c1 =>
        simp only [hl, LRes.ok.injEq] at hg
        rw [← hg.1]
        exact lex_name_head A s.ts.cin t0 (by rw [hl]; rfl)
      | err e c1 => simp [hl] at hg
  · obtain ⟨s1, h1, _, h3, h4⟩ := quit_run A s [] rest hbuf hfail (by simp) hin
    exact ⟨s1, h1, h3, fun n hn => h4 n (by simpa using hn)⟩

/-- After `x = 1;` the input `qx = 1;` ends the session: `x` is the only
variable, and on `x = 1;qx = 2; x;` the session writes 1 and ends. -/
theorem no_identifier_begins_with_q_witness :
    Reachable ratArith (initial ratArith "x = 1;qx = 2; x;".toList 'a' 0)
        ⟨⟨true, token.of_kind ratArith ';', ⟨"qx = 2; x;".toList, false, 'a', 0⟩⟩, [(['x'], 1)]⟩
    ∧ ((∀ c t, (lex ratArith c).tok = some t → t.name.head? ≠ some 'q')
      ∧ (∀ c rest, c.fail = false → c.input = 'q' :: rest →
          lex ratArith c = .ok (token.of_kind ratArith quit) { c with input := rest })
      ∧ (∀ t ts1, get ratArith
            ⟨true, token.of_kind ratArith ';', ⟨"qx = 2; x;".toList, false, 'a', 0⟩⟩ = .ok t ts1 →
          t.kind = var → t.name.head? ≠ some 'q')
      ∧ (∀ name v, (name, v) ∈ [((['x'] : List Char), (1 : ℚ))] → name.head? ≠ some 'q')
      ∧ ∀ rest, ((true : Bool) = true → (token.of_kind ratArith ';').kind = print) →
          (false : Bool) = false →
          "qx = 2; x;".toList = 'q' :: rest →
          ∃ s1 : State ℚ, s1.vars = [(['x'], 1)]
            ∧ s1.ts.cin = ⟨rest, false, 'a', 0⟩
            ∧ ∀ n, 3 ≤ n → calculate ratArith n
                ⟨⟨true, token.of_kind ratArith ';', ⟨"qx = 2; x;".toList, false, 'a', 0⟩⟩,
                  [(['x'], 1)]⟩ = some ([.prompt], s1))
    ∧ run 30 "x = 1;qx = 2; x;" = some [.prompt, .result 1, .prompt]
    ∧ run 30 "qx = 1; 3;" = some [.prompt] :=
  have hr : Reachable ratArith (initial ratArith "x = 1;qx = 2; x;".toList 'a' 0)
      ⟨⟨true, token.of_kind ratArith ';', ⟨"qx = 2; x;".toList, false, 'a', 0⟩⟩,
        [(['x'], 1)]⟩ :=
    .returned 10 (some 1) _ _ .start (by decide!)
  ⟨hr, no_identifier_begins_with_q ratArith _ 'a' 0 _ hr, by decide!, by decide!⟩

end Calc
